import Mathlib

/-!
Verification of the rust-analyzer LSP ground-truth extraction client
(`scripts/extract_ground_truth_lsp.py`).

Strings from the Python source are modelled as `List Char`.  Each definition
carries a comment naming the Python function and lines it embeds.
-/

namespace CodesearchLsp

abbrev Str := List Char

/-- Characters written via their code points. -/
def quoteC : Char := Char.ofNat 34

def backslashC : Char := Char.ofNat 92

def lbraceC : Char := Char.ofNat 123

def rbraceC : Char := Char.ofNat 125

def crC : Char := Char.ofNat 13

def lfC : Char := Char.ofNat 10

/-- Decimal digit character for `n < 10` (else clamps to `9`). -/
def digitChar (n : Nat) : Char :=
  if n = 0 then '0' else if n = 1 then '1' else if n = 2 then '2'
  else if n = 3 then '3' else if n = 4 then '4' else if n = 5 then '5'
  else if n = 6 then '6' else if n = 7 then '7' else if n = 8 then '8' else '9'

/-- Decimal rendering of a natural number, as Python `str(n)` for `n ≥ 0`. -/
def natToStr (n : Nat) : Str :=
  if n < 10 then [digitChar n]
  else natToStr (n / 10) ++ [digitChar (n % 10)]
termination_by n
decreasing_by
  exact Nat.div_lt_self (by omega) (by omega)

/-- Python `str(n)` for an integer (minus sign, then decimal digits). -/
def intToStr (n : Int) : Str :=
  if n < 0 then '-' :: natToStr n.natAbs else natToStr n.toNat

/-- JSON values carried in JSON-RPC messages. -/
inductive Json where
  | null : Json
  | bool : Bool → Json
  | num : Int → Json
  | str : Str → Json
  | arr : List Json → Json
  | obj : List (Str × Json) → Json

mutual

/-- Structural decidable equality for `Json` (nested inductive, so written
by hand). -/
def Json.decEq : (a b : Json) → Decidable (a = b)
  | .null, .null => .isTrue rfl
  | .null, .bool _ => .isFalse (fun h => Json.noConfusion h)
  | .null, .num _ => .isFalse (fun h => Json.noConfusion h)
  | .null, .str _ => .isFalse (fun h => Json.noConfusion h)
  | .null, .arr _ => .isFalse (fun h => Json.noConfusion h)
  | .null, .obj _ => .isFalse (fun h => Json.noConfusion h)
  | .bool _, .null => .isFalse (fun h => Json.noConfusion h)
  | .bool x, .bool y =>
      if h : x = y then .isTrue (by rw [h]) else .isFalse (fun hh => h (by injection hh))
  | .bool _, .num _ => .isFalse (fun h => Json.noConfusion h)
  | .bool _, .str _ => .isFalse (fun h => Json.noConfusion h)
  | .bool _, .arr _ => .isFalse (fun h => Json.noConfusion h)
  | .bool _, .obj _ => .isFalse (fun h => Json.noConfusion h)
  | .num _, .null => .isFalse (fun h => Json.noConfusion h)
  | .num _, .bool _ => .isFalse (fun h => Json.noConfusion h)
  | .num x, .num y =>
      if h : x = y then .isTrue (by rw [h]) else .isFalse (fun hh => h (by injection hh))
  | .num _, .str _ => .isFalse (fun h => Json.noConfusion h)
  | .num _, .arr _ => .isFalse (fun h => Json.noConfusion h)
  | .num _, .obj _ => .isFalse (fun h => Json.noConfusion h)
  | .str _, .null => .isFalse (fun h => Json.noConfusion h)
  | .str _, .bool _ => .isFalse (fun h => Json.noConfusion h)
  | .str _, .num _ => .isFalse (fun h => Json.noConfusion h)
  | .str x, .str y =>
      if h : x = y then .isTrue (by rw [h]) else .isFalse (fun hh => h (by injection hh))
  | .str _, .arr _ => .isFalse (fun h => Json.noConfusion h)
  | .str _, .obj _ => .isFalse (fun h => Json.noConfusion h)
  | .arr _, .null => .isFalse (fun h => Json.noConfusion h)
  | .arr _, .bool _ => .isFalse (fun h => Json.noConfusion h)
  | .arr _, .num _ => .isFalse (fun h => Json.noConfusion h)
  | .arr _, .str _ => .isFalse (fun h => Json.noConfusion h)
  | .arr xs, .arr ys =>
      match Json.decEqList xs ys with
      | .isTrue h => .isTrue (by rw [h])
      | .isFalse h => .isFalse (fun hh => h (by injection hh))
  | .arr _, .obj _ => .isFalse (fun h => Json.noConfusion h)
  | .obj _, .null => .isFalse (fun h => Json.noConfusion h)
  | .obj _, .bool _ => .isFalse (fun h => Json.noConfusion h)
  | .obj _, .num _ => .isFalse (fun h => Json.noConfusion h)
  | .obj _, .str _ => .isFalse (fun h => Json.noConfusion h)
  | .obj _, .arr _ => .isFalse (fun h => Json.noConfusion h)
  | .obj xs, .obj ys =>
      match Json.decEqFields xs ys with
      | .isTrue h => .isTrue (by rw [h])
      | .isFalse h => .isFalse (fun hh => h (by injection hh))

def Json.decEqList : (a b : List Json) → Decidable (a = b)
  | [], [] => .isTrue rfl
  | [], _ :: _ => .isFalse (fun h => List.noConfusion h)
  | _ :: _, [] => .isFalse (fun h => List.noConfusion h)
  | a :: as, b :: bs =>
      match Json.decEq a b with
      | .isTrue h1 =>
          match Json.decEqList as bs with
          | .isTrue h2 => .isTrue (by rw [h1, h2])
          | .isFalse h2 => .isFalse (fun hh => h2 (by injection hh))
      | .isFalse h1 => .isFalse (fun hh => h1 (by injection hh))

def Json.decEqFields : (a b : List (Str × Json)) → Decidable (a = b)
  | [], [] => .isTrue rfl
  | [], _ :: _ => .isFalse (fun h => List.noConfusion h)
  | _ :: _, [] => .isFalse (fun h => List.noConfusion h)
  | (k, v) :: as, (k2, v2) :: bs =>
      if hk : k = k2 then
        match Json.decEq v v2 with
        | .isTrue h1 =>
            match Json.decEqFields as bs with
            | .isTrue h2 => .isTrue (by rw [hk, h1, h2])
            | .isFalse h2 => .isFalse (fun hh => h2 (by injection hh))
        | .isFalse h1 => .isFalse (fun hh => by
            injection hh with hh1 hh2
            exact h1 (congrArg Prod.snd hh1))
      else .isFalse (fun hh => by
            injection hh with hh1 hh2
            exact hk (congrArg Prod.fst hh1))

end

instance : DecidableEq Json := Json.decEq

/-- Lower-case hexadecimal digit for `n < 16` (else clamps to `f`). -/
def hexDigit (n : Nat) : Char :=
  if n < 10 then digitChar n
  else if n = 10 then 'a' else if n = 11 then 'b' else if n = 12 then 'c'
  else if n = 13 then 'd' else if n = 14 then 'e' else 'f'

/-- Four lower-case hex digits of `n % 65536`. -/
def hex4 (n : Nat) : Str :=
  [hexDigit (n / 4096 % 16), hexDigit (n / 256 % 16), hexDigit (n / 16 % 16), hexDigit (n % 16)]

/-- A `\uXXXX` escape. -/
def uEscape (n : Nat) : Str := backslashC :: 'u' :: hex4 n

/-- CPython `json` string escaping with the default `ensure_ascii=True`:
characters in `0x20..0x7e` other than the quote and backslash pass through,
everything else becomes a two-character escape or a `\uXXXX` escape
(surrogate pair above `0xffff`). -/
def escapeChar (c : Char) : Str :=
  if c.toNat = 34 then [backslashC, quoteC]
  else if c.toNat = 92 then [backslashC, backslashC]
  else if c.toNat = 10 then [backslashC, 'n']
  else if c.toNat = 13 then [backslashC, 'r']
  else if c.toNat = 9 then [backslashC, 't']
  else if c.toNat = 8 then [backslashC, 'b']
  else if c.toNat = 12 then [backslashC, 'f']
  else if 32 ≤ c.toNat ∧ c.toNat ≤ 126 then [c]
  else if c.toNat < 65536 then uEscape c.toNat
  else uEscape (55296 + (c.toNat - 65536) / 1024)
        ++ uEscape (56320 + (c.toNat - 65536) % 1024)

def escapeStr (s : Str) : Str := (s.map escapeChar).flatten

/-- A serialized JSON string literal: quote, escaped body, quote. -/
def dumpStr (s : Str) : Str := quoteC :: (escapeStr s ++ [quoteC])

mutual

/-- `json.dumps(message)` (line 123) with CPython defaults:
`ensure_ascii=True`, separators `", "` and `": "`. -/
def dumps : Json → Str
  | Json.null => "null".data
  | Json.bool true => "true".data
  | Json.bool false => "false".data
  | Json.num n => intToStr n
  | Json.str s => dumpStr s
  | Json.arr xs => '[' :: (dumpsList xs ++ [']'])
  | Json.obj fs => lbraceC :: (dumpsFields fs ++ [rbraceC])

/-- Comma-space separated serialization of array elements. -/
def dumpsList : List Json → Str
  | [] => []
  | [j] => dumps j
  | j :: k :: rest => dumps j ++ (',' :: ' ' :: dumpsList (k :: rest))

/-- Comma-space separated `"key": value` pairs of an object. -/
def dumpsFields : List (Str × Json) → Str
  | [] => []
  | [(k, v)] => dumpStr k ++ (':' :: ' ' :: dumps v)
  | (k, v) :: p :: rest =>
      dumpStr k ++ (':' :: ' ' :: (dumps v ++ (',' :: ' ' :: dumpsFields (p :: rest))))

end

/-- Every character has code point below 128. -/
def allAscii (s : Str) : Bool := s.all (fun c => c.toNat < 128)

theorem allAscii_iff (s : Str) : allAscii s = true ↔ ∀ c ∈ s, c.toNat < 128 := by
  simp [allAscii]

/-- UTF-8 encoding of one character, as Python `str.encode()` produces. -/
def utf8CharBytes (c : Char) : List Nat :=
  let n := c.toNat
  if n < 128 then [n]
  else if n < 2048 then [192 + n / 64, 128 + n % 64]
  else if n < 65536 then [224 + n / 4096, 128 + n / 64 % 64, 128 + n % 64]
  else [240 + n / 262144, 128 + n / 4096 % 64, 128 + n / 64 % 64, 128 + n % 64]

/-- UTF-8 encoding of a string (`str.encode()`). -/
def utf8Encode (s : Str) : List Nat := (s.map utf8CharBytes).flatten

/-- The ASCII header built at line 124:
`Content-Length: ` then `len(content)` then CR LF CR LF. -/
def contentLengthHeader (n : Nat) : Str :=
  "Content-Length: ".data ++ natToStr n ++ [crC, lfC, crC, lfC]

/-- `RustAnalyzerLSP._send_message` (lines 118-126): the byte stream written
for one message, `header.encode() + content.encode()` where
`content = json.dumps(message)` and the header declares `len(content)`. -/
def sendMessage (m : Json) : List Nat :=
  utf8Encode (contentLengthHeader (dumps m).length) ++ utf8Encode (dumps m)

theorem digitChar_ascii (n : Nat) : (digitChar n).toNat < 128 := by
  unfold digitChar
  repeat' split
  all_goals decide

theorem natToStr_ascii (n : Nat) : ∀ c ∈ natToStr n, c.toNat < 128 := by
  induction n using Nat.strong_induction_on with
  | _ n ih =>
    rw [natToStr]
    by_cases h : n < 10
    · simp only [if_pos h]
      intro c hc
      rw [List.mem_singleton] at hc
      rw [hc]
      exact digitChar_ascii n
    · simp only [if_neg h]
      intro c hc
      rcases List.mem_append.mp hc with h1 | h2
      · exact ih (n / 10) (Nat.div_lt_self (by omega) (by omega)) c h1
      · rw [List.mem_singleton] at h2
        rw [h2]
        exact digitChar_ascii (n % 10)

theorem intToStr_ascii (n : Int) : ∀ c ∈ intToStr n, c.toNat < 128 := by
  unfold intToStr
  split
  · intro c hc
    rcases List.mem_cons.mp hc with h1 | h2
    · rw [h1]; decide
    · exact natToStr_ascii n.natAbs c h2
  · exact natToStr_ascii n.toNat

theorem hexDigit_ascii (n : Nat) : (hexDigit n).toNat < 128 := by
  unfold hexDigit
  repeat' split
  all_goals first
  | exact digitChar_ascii n
  | decide

theorem uEscape_ascii (n : Nat) : ∀ c ∈ uEscape n, c.toNat < 128 := by
  intro c hc
  simp only [uEscape, hex4, List.mem_cons, List.mem_singleton] at hc
  rcases hc with h | h | h | h | h | h | h
  · rw [h]; decide
  · rw [h]; decide
  · rw [h]; exact hexDigit_ascii _
  · rw [h]; exact hexDigit_ascii _
  · rw [h]; exact hexDigit_ascii _
  · rw [h]; exact hexDigit_ascii _
  · cases h

theorem escapeChar_ascii (c : Char) : ∀ d ∈ escapeChar c, d.toNat < 128 := by
  unfold escapeChar
  intro d hd
  split at hd
  · rcases List.mem_cons.mp hd with h | h
    · rw [h]; decide
    · rw [List.mem_singleton] at h; rw [h]; decide
  · split at hd
    · rcases List.mem_cons.mp hd with h | h
      · rw [h]; decide
      · rw [List.mem_singleton] at h; rw [h]; decide
    · split at hd
      · rcases List.mem_cons.mp hd with h | h
        · rw [h]; decide
        · rw [List.mem_singleton] at h; rw [h]; decide
      · split at hd
        · rcases List.mem_cons.mp hd with h | h
          · rw [h]; decide
          · rw [List.mem_singleton] at h; rw [h]; decide
        · split at hd
          · rcases List.mem_cons.mp hd with h | h
            · rw [h]; decide
            · rw [List.mem_singleton] at h; rw [h]; decide
          · split at hd
            · rcases List.mem_cons.mp hd with h | h
              · rw [h]; decide
              · rw [List.mem_singleton] at h; rw [h]; decide
            · split at hd
              · rcases List.mem_cons.mp hd with h | h
                · rw [h]; decide
                · rw [List.mem_singleton] at h; rw [h]; decide
              · rename_i h34 h92 h10 h13 h9 h8 h12
                split at hd
                · rename_i hpr
                  rw [List.mem_singleton] at hd
                  rw [hd]
                  omega
                · split at hd
                  · exact uEscape_ascii _ d hd
                  · rcases List.mem_append.mp hd with h | h
                    · exact uEscape_ascii _ d h
                    · exact uEscape_ascii _ d h

theorem escapeStr_ascii (s : Str) : ∀ d ∈ escapeStr s, d.toNat < 128 := by
  intro d hd
  simp only [escapeStr, List.mem_flatten, List.mem_map] at hd
  obtain ⟨l, ⟨c, _, hcl⟩, hdl⟩ := hd
  exact escapeChar_ascii c d (hcl ▸ hdl)

theorem dumpStr_ascii (s : Str) : ∀ d ∈ dumpStr s, d.toNat < 128 := by
  intro d hd
  rcases List.mem_cons.mp hd with h | h
  · rw [h]; decide
  · rcases List.mem_append.mp h with h2 | h2
    · exact escapeStr_ascii s d h2
    · rw [List.mem_singleton] at h2; rw [h2]; decide

mutual

theorem dumps_ascii : (j : Json) → ∀ c ∈ dumps j, c.toNat < 128
  | Json.null => by decide
  | Json.bool true => by decide
  | Json.bool false => by decide
  | Json.num n => intToStr_ascii n
  | Json.str s => dumpStr_ascii s
  | Json.arr xs => by
      intro c hc
      rcases List.mem_cons.mp hc with h | h
      · rw [h]; decide
      · rcases List.mem_append.mp h with h2 | h2
        · exact dumpsList_ascii xs c h2
        · rw [List.mem_singleton] at h2; rw [h2]; decide
  | Json.obj fs => by
      intro c hc
      rcases List.mem_cons.mp hc with h | h
      · rw [h]; decide
      · rcases List.mem_append.mp h with h2 | h2
        · exact dumpsFields_ascii fs c h2
        · rw [List.mem_singleton] at h2; rw [h2]; decide

theorem dumpsList_ascii : (l : List Json) → ∀ c ∈ dumpsList l, c.toNat < 128
  | [] => by intro c hc; cases hc
  | [j] => dumps_ascii j
  | j :: k :: rest => by
      intro c hc
      rcases List.mem_append.mp hc with h | h
      · exact dumps_ascii j c h
      · rcases List.mem_cons.mp h with h2 | h2
        · rw [h2]; decide
        · rcases List.mem_cons.mp h2 with h3 | h3
          · rw [h3]; decide
          · exact dumpsList_ascii (k :: rest) c h3

theorem dumpsFields_ascii : (l : List (Str × Json)) → ∀ c ∈ dumpsFields l, c.toNat < 128
  | [] => by intro c hc; cases hc
  | [(k, v)] => by
      intro c hc
      rcases List.mem_append.mp hc with h | h
      · exact dumpStr_ascii k c h
      · rcases List.mem_cons.mp h with h2 | h2
        · rw [h2]; decide
        · rcases List.mem_cons.mp h2 with h3 | h3
          · rw [h3]; decide
          · exact dumps_ascii v c h3
  | (k, v) :: p :: rest => by
      intro c hc
      rcases List.mem_append.mp hc with h | h
      · exact dumpStr_ascii k c h
      · rcases List.mem_cons.mp h with h2 | h2
        · rw [h2]; decide
        · rcases List.mem_cons.mp h2 with h3 | h3
          · rw [h3]; decide
          · rcases List.mem_append.mp h3 with h4 | h4
            · exact dumps_ascii v c h4
            · rcases List.mem_cons.mp h4 with h5 | h5
              · rw [h5]; decide
              · rcases List.mem_cons.mp h5 with h6 | h6
                · rw [h6]; decide
                · exact dumpsFields_ascii (p :: rest) c h6

end

theorem utf8CharBytes_ascii_len (c : Char) (h : c.toNat < 128) :
    (utf8CharBytes c).length = 1 := by
  simp [utf8CharBytes, if_pos h]

theorem ascii_utf8_len (s : Str) (h : ∀ c ∈ s, c.toNat < 128) :
    (utf8Encode s).length = s.length := by
  induction s with
  | nil => rfl
  | cons c rest ih =>
    show (utf8CharBytes c ++ (rest.map utf8CharBytes).flatten).length = rest.length + 1
    rw [List.length_append]
    rw [utf8CharBytes_ascii_len c (h c (List.mem_cons_self c rest))]
    have := ih (fun d hd => h d (List.mem_cons_of_mem c hd))
    simp only [utf8Encode] at this
    omega

theorem contentLengthHeader_ascii (n : Nat) :
    ∀ c ∈ contentLengthHeader n, c.toNat < 128 := by
  have hfix : ∀ c ∈ "Content-Length: ".data, c.toNat < 128 := by decide
  have htail : ∀ c ∈ [crC, lfC, crC, lfC], c.toNat < 128 := by decide
  intro c hc
  unfold contentLengthHeader at hc
  rcases List.mem_append.mp hc with h | h
  · rcases List.mem_append.mp h with h2 | h2
    · exact hfix c h2
    · exact natToStr_ascii n c h2
  · exact htail c h

/-- C3: for every JSON-RPC message sent by the transport, the written frame is
the ASCII header `Content-Length: N` followed by CR LF CR LF (then nothing
else before the payload) and then the serialized JSON payload bytes, where
the declared N equals the exact byte length of the UTF-8 encoding of that
payload.  The serialized payload is entirely ASCII (CPython `json.dumps`
escapes non-ASCII characters by default), so the character count the code
writes coincides with the UTF-8 byte count even when the message holds
non-ASCII string values. -/
theorem c3_frame_declares_exact_utf8_byte_length (m : Json) :
    sendMessage m
      = utf8Encode (contentLengthHeader (utf8Encode (dumps m)).length)
          ++ utf8Encode (dumps m)
    ∧ (∀ c ∈ contentLengthHeader (utf8Encode (dumps m)).length, c.toNat < 128)
    ∧ allAscii (dumps m) = true := by
  have h := dumps_ascii m
  have hlen := ascii_utf8_len (dumps m) h
  refine ⟨?_, contentLengthHeader_ascii _, (allAscii_iff _).mpr h⟩
  unfold sendMessage
  rw [hlen]


/-- Field lookup in a JSON object (`key in message` / `message[key]`):
first matching field, `none` on non-objects. -/
def fieldsGet : List (Str × Json) → Str → Option Json
  | [], _ => none
  | (k, v) :: rest, key => if k = key then some v else fieldsGet rest key

def jsonGet (m : Json) (key : Str) : Option Json :=
  match m with
  | Json.obj fields => fieldsGet fields key
  | _ => none

/-- The shared response table `self._responses` (line 52), a Python dict
from response id values to messages, modelled as a finite map. -/
def Table : Type := Json → Option Json

def emptyTable : Table := fun _ => none

def tableInsert (t : Table) (k v : Json) : Table :=
  fun k2 => if k2 = k then some v else t k2

def tableErase (t : Table) (k : Json) : Table :=
  fun k2 => if k2 = k then none else t k2

/-- The mutable session state: `self.request_id` (line 51) and
`self._responses` (line 52), both accessed under `self._lock`. -/
structure SessionState where
  requestId : Nat
  responses : Table

def initSession : SessionState := { requestId := 0, responses := emptyTable }

/-- One mutex-serialized operation on the session state:
`alloc` is lines 130-131 (`self.request_id += 1`), `store` is lines 110-112
(the reader thread files a message under its own `id` field), `pollHit` is
lines 146-147 (`request_id in self._responses` then `pop`), `pollMiss` a
poll that found nothing. -/
inductive SessionEvent where
  | alloc : Nat → SessionEvent
  | store : Json → Json → SessionEvent
  | pollHit : Json → Json → SessionEvent
  | pollMiss : Json → SessionEvent

inductive SessionStep : SessionState → SessionEvent → SessionState → Prop
  | alloc (s : SessionState) :
      SessionStep s (SessionEvent.alloc (s.requestId + 1))
        { requestId := s.requestId + 1, responses := s.responses }
  | store (s : SessionState) (idv msg : Json)
      (h : jsonGet msg ("id".data) = some idv) :
      SessionStep s (SessionEvent.store idv msg)
        { requestId := s.requestId, responses := tableInsert s.responses idv msg }
  | pollHit (s : SessionState) (idv msg : Json)
      (h : s.responses idv = some msg) :
      SessionStep s (SessionEvent.pollHit idv msg)
        { requestId := s.requestId, responses := tableErase s.responses idv }
  | pollMiss (s : SessionState) (idv : Json)
      (h : s.responses idv = none) :
      SessionStep s (SessionEvent.pollMiss idv) s

/-- A finite interleaving of session operations. -/
inductive SessionTrace : SessionState → List SessionEvent → SessionState → Prop
  | nil (s : SessionState) : SessionTrace s [] s
  | cons {s s2 s3 : SessionState} {e : SessionEvent} {es : List SessionEvent} :
      SessionStep s e s2 → SessionTrace s2 es s3 → SessionTrace s (e :: es) s3

/-- The ids handed out by `alloc` events, in order. -/
def allocIds : List SessionEvent → List Nat
  | [] => []
  | SessionEvent.alloc n :: rest => n :: allocIds rest
  | _ :: rest => allocIds rest

def countPollHits (idv : Json) : List SessionEvent → Nat
  | [] => 0
  | SessionEvent.pollHit k _ :: rest => (if k = idv then 1 else 0) + countPollHits idv rest
  | _ :: rest => countPollHits idv rest

def countStores (idv : Json) : List SessionEvent → Nat
  | [] => 0
  | SessionEvent.store k _ :: rest => (if k = idv then 1 else 0) + countStores idv rest
  | _ :: rest => countStores idv rest

theorem trace_allocIds_chain {s s2 : SessionState} {es : List SessionEvent}
    (h : SessionTrace s es s2) : List.Chain (· < ·) s.requestId (allocIds es) := by
  induction h with
  | nil => exact List.Chain.nil
  | cons hstep _ ih =>
    cases hstep with
    | alloc => exact List.Chain.cons (Nat.lt_succ_self _) ih
    | store idv msg hm => exact ih
    | pollHit idv msg hm => exact ih
    | pollMiss idv hm => exact ih

theorem chain_lt_pairwise {a : Nat} {l : List Nat}
    (h : List.Chain (· < ·) a l) : List.Pairwise (· < ·) l := by
  have h2 : List.Chain' (· < ·) l := by
    cases l with
    | nil => trivial
    | cons b l2 => exact (List.chain_cons.mp h).2
  exact List.chain'_iff_pairwise.mp h2

/-- Every message filed in the table sits under its own id value. -/
def tableIdOk (t : Table) : Prop :=
  ∀ k v, t k = some v → jsonGet v ("id".data) = some k

theorem tableIdOk_empty : tableIdOk emptyTable := by
  intro k v h
  cases h

theorem tableIdOk_insert {t : Table} (ht : tableIdOk t) {k v : Json}
    (h : jsonGet v ("id".data) = some k) : tableIdOk (tableInsert t k v) := by
  intro k2 v2 h2
  unfold tableInsert at h2
  by_cases hk : k2 = k
  · rw [if_pos hk] at h2
    cases h2
    rw [h, hk]
  · rw [if_neg hk] at h2
    exact ht k2 v2 h2

theorem tableIdOk_erase {t : Table} (ht : tableIdOk t) (k : Json) :
    tableIdOk (tableErase t k) := by
  intro k2 v2 h2
  unfold tableErase at h2
  by_cases hk : k2 = k
  · rw [if_pos hk] at h2
    cases h2
  · rw [if_neg hk] at h2
    exact ht k2 v2 h2

theorem trace_pollHit_id_matches {s s2 : SessionState} {es : List SessionEvent}
    (h : SessionTrace s es s2) (hok : tableIdOk s.responses) :
    ∀ e ∈ es, ∀ idv msg, e = SessionEvent.pollHit idv msg →
      jsonGet msg ("id".data) = some idv := by
  induction h with
  | nil => intro e he; cases he
  | cons hstep _ ih =>
    intro e he idv msg hpe
    rcases List.mem_cons.mp he with h1 | h1
    · subst h1
      subst hpe
      cases hstep
      exact hok idv msg (by assumption)
    · cases hstep with
      | alloc => exact ih hok e h1 idv msg hpe
      | store k m hm => exact ih (tableIdOk_insert hok hm) e h1 idv msg hpe
      | pollHit k m hm => exact ih (tableIdOk_erase hok _) e h1 idv msg hpe
      | pollMiss k hm => exact ih hok e h1 idv msg hpe

def tableInd (t : Table) (idv : Json) : Nat :=
  if (t idv).isSome then 1 else 0

theorem trace_count_le : ∀ {es : List SessionEvent} {s s2 : SessionState},
    SessionTrace s es s2 → ∀ idv : Json,
    countPollHits idv es ≤ countStores idv es + tableInd s.responses idv := by
  intro es
  induction es with
  | nil =>
    intro s s2 h idv
    exact Nat.zero_le _
  | cons e es2 ih =>
    intro s s2 h idv
    cases h with
    | cons hstep htail =>
      cases hstep with
      | alloc => exact ih htail idv
      | pollMiss k hm => exact ih htail idv
      | store k m hm =>
        have ihs : countPollHits idv es2
            ≤ countStores idv es2 + tableInd (tableInsert s.responses k m) idv :=
          ih htail idv
        show countPollHits idv es2
            ≤ (if k = idv then 1 else 0) + countStores idv es2 + tableInd s.responses idv
        by_cases hk : k = idv
        · subst hk
          have hins : tableInd (tableInsert s.responses k m) k = 1 := by
            unfold tableInd tableInsert
            simp
          rw [hins] at ihs
          rw [if_pos rfl]
          omega
        · have hki : ¬(idv = k) := fun hh => hk hh.symm
          have hins : tableInd (tableInsert s.responses k m) idv
              = tableInd s.responses idv := by
            unfold tableInd tableInsert
            simp [hki]
          rw [hins] at ihs
          rw [if_neg hk]
          omega
      | pollHit k m hm =>
        have ihs : countPollHits idv es2
            ≤ countStores idv es2 + tableInd (tableErase s.responses k) idv :=
          ih htail idv
        show (if k = idv then 1 else 0) + countPollHits idv es2
            ≤ countStores idv es2 + tableInd s.responses idv
        by_cases hk : k = idv
        · subst hk
          have hers : tableInd (tableErase s.responses k) k = 0 := by
            unfold tableInd tableErase
            simp
          have hcur : tableInd s.responses k = 1 := by
            unfold tableInd
            rw [hm]
            rfl
          rw [hers] at ihs
          rw [if_pos rfl, hcur]
          omega
        · have hki : ¬(idv = k) := fun hh => hk hh.symm
          have hers : tableInd (tableErase s.responses k) idv
              = tableInd s.responses idv := by
            unfold tableInd tableErase
            simp [hki]
          rw [hers] at ihs
          rw [if_neg hk]
          omega

/-- C1: within a single session, every call to the request primitive
(`_send_request`, lines 128-153) allocates a request id strictly greater
than every previously allocated id, and a stored response is delivered to at
most one waiting request, namely one polling exactly the id the response
carries: every `pollHit` pops a message whose own `id` field equals the
polled id, and an id is popped at most as many times as a message was stored
under it. -/
theorem c1_ids_increase_and_responses_match
    {es : List SessionEvent} {s2 : SessionState}
    (h : SessionTrace initSession es s2) :
    List.Pairwise (· < ·) (allocIds es)
    ∧ (∀ e ∈ es, ∀ idv msg, e = SessionEvent.pollHit idv msg →
        jsonGet msg ("id".data) = some idv)
    ∧ (∀ idv, countPollHits idv es ≤ countStores idv es) := by
  refine ⟨chain_lt_pairwise (trace_allocIds_chain h), trace_pollHit_id_matches h tableIdOk_empty, ?_⟩
  intro idv
  have h2 := trace_count_le h idv
  have h3 : tableInd initSession.responses idv = 0 := rfl
  omega

/-- C1 witness trace: allocate ids 1 and 2, the reader stores a response
carrying id 1, the waiting request pops it. -/
def demoMsg1 : Json := Json.obj [("id".data, Json.num 1), ("result".data, Json.null)]

def demoEvents : List SessionEvent :=
  [SessionEvent.alloc 1, SessionEvent.alloc 2,
   SessionEvent.store (Json.num 1) demoMsg1,
   SessionEvent.pollHit (Json.num 1) demoMsg1]

def demoFinal : SessionState :=
  { requestId := 2,
    responses := tableErase (tableInsert emptyTable (Json.num 1) demoMsg1) (Json.num 1) }

theorem demoTrace : SessionTrace initSession demoEvents demoFinal := by
  refine SessionTrace.cons (SessionStep.alloc initSession) ?_
  refine SessionTrace.cons (SessionStep.alloc _) ?_
  refine SessionTrace.cons (SessionStep.store _ (Json.num 1) demoMsg1 (by rfl)) ?_
  refine SessionTrace.cons (SessionStep.pollHit _ (Json.num 1) demoMsg1 (by rfl)) ?_
  exact SessionTrace.nil _

theorem c1_ids_increase_and_responses_match_witness :
    SessionTrace initSession demoEvents demoFinal
    ∧ List.Pairwise (· < ·) (allocIds demoEvents)
    ∧ (∀ idv, countPollHits idv demoEvents ≤ countStores idv demoEvents) :=
  ⟨demoTrace, (c1_ids_increase_and_responses_match demoTrace).1,
    (c1_ids_increase_and_responses_match demoTrace).2.2⟩

/-- The request wait loop of `_send_request` (lines 142-153): the table
contents observed at each successive 10ms poll before the timeout elapses,
ending with `raise TimeoutError` when no poll saw the id.  On a hit the
response is popped; a message with an `error` member raises (ProtocolError),
otherwise `response.get("result", {})` is returned. -/
inductive ReqResult where
  | ok : Json → ReqResult
  | protocolError : Json → ReqResult
  | timeoutError : ReqResult

def sendRequestPoll (rid : Json) : List Table → ReqResult
  | [] => ReqResult.timeoutError
  | t :: ts =>
    match t rid with
    | some resp =>
      match jsonGet resp ("error".data) with
      | some e => ReqResult.protocolError e
      | none => ReqResult.ok ((jsonGet resp ("result".data)).getD (Json.obj []))
    | none => sendRequestPoll rid ts

/-- C2: for every call to the request primitive, if a response bearing the
allocated id appears in the shared table at some poll before the timeout
elapses, the call raises ProtocolError exactly when that response carries an
error object and otherwise returns the response's result payload; if no poll
before the timeout sees the id, the call raises TimeoutError
(`_send_request`, lines 142-153). -/
theorem c2_request_outcome (rid : Json) (ts : List Table) :
    ((∀ t ∈ ts, t rid = none) → sendRequestPoll rid ts = ReqResult.timeoutError)
    ∧ (∀ pre t post, ts = pre ++ t :: post → (∀ u ∈ pre, u rid = none) →
        ∀ resp, t rid = some resp →
          (∀ e, jsonGet resp ("error".data) = some e →
            sendRequestPoll rid ts = ReqResult.protocolError e)
          ∧ (jsonGet resp ("error".data) = none →
            sendRequestPoll rid ts
              = ReqResult.ok ((jsonGet resp ("result".data)).getD (Json.obj [])))) := by
  constructor
  · intro hall
    induction ts with
    | nil => rfl
    | cons t ts2 ih =>
      have h1 : t rid = none := hall t (List.mem_cons_self t ts2)
      have h2 := ih (fun u hu => hall u (List.mem_cons_of_mem t hu))
      show sendRequestPoll rid (t :: ts2) = ReqResult.timeoutError
      simp only [sendRequestPoll, h1]
      exact h2
  · intro pre
    induction pre generalizing ts with
    | nil =>
      intro t post hts _ resp hresp
      subst hts
      constructor
      · intro e he
        show sendRequestPoll rid (t :: post) = ReqResult.protocolError e
        simp only [sendRequestPoll, hresp, he]
      · intro he
        show sendRequestPoll rid (t :: post)
          = ReqResult.ok ((jsonGet resp ("result".data)).getD (Json.obj []))
        simp only [sendRequestPoll, hresp, he]
    | cons u pre2 ih =>
      intro t post hts hpre resp hresp
      subst hts
      have hu : u rid = none := hpre u (List.mem_cons_self u pre2)
      have ih2 := ih (pre2 ++ t :: post) t post rfl
        (fun v hv => hpre v (List.mem_cons_of_mem u hv)) resp hresp
      constructor
      · intro e he
        show sendRequestPoll rid (u :: (pre2 ++ t :: post)) = ReqResult.protocolError e
        simp only [sendRequestPoll, hu]
        exact ih2.1 e he
      · intro he
        show sendRequestPoll rid (u :: (pre2 ++ t :: post))
          = ReqResult.ok ((jsonGet resp ("result".data)).getD (Json.obj []))
        simp only [sendRequestPoll, hu]
        exact ih2.2 he

def demoErrMsg : Json := Json.obj [("id".data, Json.num 3), ("error".data, Json.str "bad".data)]

def demoTableHit : Table := tableInsert emptyTable (Json.num 3) demoErrMsg

theorem c2_request_outcome_witness :
    (emptyTable (Json.num 3) = none)
    ∧ (demoTableHit (Json.num 3) = some demoErrMsg)
    ∧ sendRequestPoll (Json.num 3) [emptyTable, demoTableHit]
        = ReqResult.protocolError (Json.str "bad".data) := by
  refine ⟨rfl, rfl, ?_⟩
  have h := (c2_request_outcome (Json.num 3) [emptyTable, demoTableHit]).2
    [emptyTable] demoTableHit [] rfl
    (by intro u hu; rw [List.mem_singleton] at hu; rw [hu]; rfl)
    demoErrMsg rfl
  exact h.1 (Json.str "bad".data) rfl

theorem trace_entry_stays : ∀ {es : List SessionEvent} {s s2 : SessionState},
    SessionTrace s es s2 → ∀ i msg, s.responses i = some msg →
    (∀ e ∈ es, ∀ m, e ≠ SessionEvent.pollHit i m) →
    (∀ e ∈ es, ∀ m, e ≠ SessionEvent.store i m) →
    s2.responses i = some msg := by
  intro es
  induction es with
  | nil =>
    intro s s2 h i msg hcur _ _
    cases h
    exact hcur
  | cons e es2 ih =>
    intro s s2 h i msg hcur hnopoll hnostore
    cases h with
    | cons hstep htail =>
      have htailpoll : ∀ e2 ∈ es2, ∀ m, e2 ≠ SessionEvent.pollHit i m :=
        fun e2 he2 m => hnopoll e2 (List.mem_cons_of_mem _ he2) m
      have htailstore : ∀ e2 ∈ es2, ∀ m, e2 ≠ SessionEvent.store i m :=
        fun e2 he2 m => hnostore e2 (List.mem_cons_of_mem _ he2) m
      cases hstep with
      | alloc => exact ih htail i msg hcur htailpoll htailstore
      | store k m hm =>
        have hk : k ≠ i := by
          intro hki
          exact hnostore (SessionEvent.store k m) (List.mem_cons_self _ _) m
            (by rw [hki])
        refine ih htail i msg ?_ htailpoll htailstore
        show tableInsert _ k m i = some msg
        unfold tableInsert
        rw [if_neg (fun hh => hk hh.symm)]
        exact hcur
      | pollHit k m hm =>
        have hk : k ≠ i := by
          intro hki
          exact hnopoll (SessionEvent.pollHit k m) (List.mem_cons_self _ _) m
            (by rw [hki])
        refine ih htail i msg ?_ htailpoll htailstore
        show tableErase _ k i = some msg
        unfold tableErase
        rw [if_neg (fun hh => hk hh.symm)]
        exact hcur
      | pollMiss k hm => exact ih htail i msg hcur htailpoll htailstore

/-- C9: a reply whose request already timed out is never surfaced.  If at
some point the table holds a reply under id `i` and from then on no poll for
`i` and no further store under `i` happens (the sole waiter gave up at its
timeout, and because ids are never reused no later request polls `i`), the
reply is still sitting unretrieved in the table at the end of the trace;
moreover any reply a poll does surface carries exactly the polling request's
id, so a message carrying id `i` is never handed to a request waiting on a
different id. -/
theorem c9_late_reply_never_surfaced
    {s mid : SessionState} {es tail : List SessionEvent}
    (h : SessionTrace initSession es s)
    (htail : SessionTrace mid tail s) (i : Json) (msg : Json)
    (hcur : mid.responses i = some msg)
    (hnopoll : ∀ e ∈ tail, ∀ m, e ≠ SessionEvent.pollHit i m)
    (hnostore : ∀ e ∈ tail, ∀ m, e ≠ SessionEvent.store i m) :
    s.responses i = some msg
    ∧ (∀ e ∈ es, ∀ j m, e = SessionEvent.pollHit j m → j ≠ i →
        jsonGet m ("id".data) ≠ some i) := by
  constructor
  · exact trace_entry_stays htail i msg hcur hnopoll hnostore
  · intro e he j m hpe hji
    have hid := trace_pollHit_id_matches h tableIdOk_empty e he j m hpe
    rw [hid]
    intro hh
    injection hh with hh2
    exact hji hh2

def demoLateMsg : Json := Json.obj [("id".data, Json.num 1), ("result".data, Json.bool true)]

def demoLateMid : SessionState :=
  { requestId := 1, responses := tableInsert emptyTable (Json.num 1) demoLateMsg }

def demoLateFinal : SessionState :=
  { requestId := 2, responses := tableInsert emptyTable (Json.num 1) demoLateMsg }

def demoLateEvents : List SessionEvent :=
  [SessionEvent.alloc 1, SessionEvent.store (Json.num 1) demoLateMsg, SessionEvent.alloc 2]

theorem demoLateTraceFull : SessionTrace initSession demoLateEvents demoLateFinal := by
  refine SessionTrace.cons (SessionStep.alloc initSession) ?_
  refine SessionTrace.cons
    (SessionStep.store { requestId := 1, responses := emptyTable }
      (Json.num 1) demoLateMsg (by rfl)) ?_
  exact SessionTrace.cons (SessionStep.alloc demoLateMid) (SessionTrace.nil _)

theorem demoLateTraceTail : SessionTrace demoLateMid [SessionEvent.alloc 2] demoLateFinal :=
  SessionTrace.cons (SessionStep.alloc demoLateMid) (SessionTrace.nil _)

theorem c9_late_reply_never_surfaced_witness :
    demoLateMid.responses (Json.num 1) = some demoLateMsg
    ∧ demoLateFinal.responses (Json.num 1) = some demoLateMsg := by
  refine ⟨rfl, ?_⟩
  have h := c9_late_reply_never_surfaced demoLateTraceFull demoLateTraceTail
    (Json.num 1) demoLateMsg rfl
    (by
      intro e he m
      rw [List.mem_singleton] at he
      subst he
      intro hh
      exact SessionEvent.noConfusion hh)
    (by
      intro e he m
      rw [List.mem_singleton] at he
      subst he
      intro hh
      exact SessionEvent.noConfusion hh)
  exact h.1



/-- One document-symbol record as `find_enclosing_function` reads it
(lines 382-412): `name` (default `""`), `kind` (default `0`), the start/end
lines of `range` or `location.range` (default `0`), `containerName`
(default `""`), and `children` (default `[]`). -/
inductive Sym where
  | mk : Str → Nat → Nat → Nat → Str → List Sym → Sym

def Sym.name : Sym → Str
  | Sym.mk n _ _ _ _ _ => n

def Sym.kind : Sym → Nat
  | Sym.mk _ k _ _ _ _ => k

def Sym.startLine : Sym → Nat
  | Sym.mk _ _ sl _ _ _ => sl

def Sym.endLine : Sym → Nat
  | Sym.mk _ _ _ el _ _ => el

def Sym.container : Sym → Str
  | Sym.mk _ _ _ _ c _ => c

def Sym.children : Sym → List Sym
  | Sym.mk _ _ _ _ _ ch => ch

/-- `kind in [6, 12]` (line 400): SymbolKind 6 = Method, 12 = Function. -/
def isFunKind (k : Nat) : Bool := k = 6 || k = 12

/-- `end_line - start_line` (line 420). -/
def funcSpan (s : Sym) : Nat := s.endLine - s.startLine

/-- The name built at lines 403-409: `containerName` wins, else the
accumulated parent name, else the record's own name. -/
def mkFullName (parentName : Str) (s : Sym) : Str :=
  if s.container ≠ [] then s.container ++ ("::".data ++ s.name)
  else if parentName ≠ [] then parentName ++ ("::".data ++ s.name)
  else s.name

/-- The best-match update at lines 418-423: track the smallest
`end_line - start_line` among containing function-kind records. -/
def updateBest (s : Sym) (fullName : Str) (best : Option (Str × Nat)) : Option (Str × Nat) :=
  if isFunKind s.kind then
    match best with
    | none => some (fullName, funcSpan s)
    | some (b, bs) => if funcSpan s < bs then some (fullName, funcSpan s) else some (b, bs)
  else best

/-- `find_containing_function` (lines 376-425): loop over the records;
on a record whose line range contains the reference line, recurse into its
children first and return a truthy child result immediately, otherwise
keep the smallest containing function-kind record seen so far. -/
def fcfGo (refLine : Nat) (parentName : Str) : List Sym → Option (Str × Nat) → Option Str
  | [], best => Option.map Prod.fst best
  | s :: rest, best =>
    if s.startLine ≤ refLine ∧ refLine ≤ s.endLine then
      match (if s.children.isEmpty then none
             else fcfGo refLine (mkFullName parentName s) s.children none) with
      | some c =>
        if c ≠ [] then some c
        else fcfGo refLine parentName rest (updateBest s (mkFullName parentName s) best)
      | none => fcfGo refLine parentName rest (updateBest s (mkFullName parentName s) best)
    else fcfGo refLine parentName rest best
termination_by l _ => sizeOf l
decreasing_by
  all_goals cases s
  all_goals simp [Sym.children]
  all_goals omega

/-- `find_containing_function(symbols)` with the default `parent_name = ""`
(line 427). -/
def findContainingFunction (refLine : Nat) (symbols : List Sym) : Option Str :=
  fcfGo refLine [] symbols none

/-- Python `s.split(sep)` for a one-character separator. -/
def splitChar (sep : Char) : Str → List Str
  | [] => [[]]
  | c :: rest =>
    if c = sep then [] :: splitChar sep rest
    else
      match splitChar sep rest with
      | [] => [[c]]
      | g :: gs => (c :: g) :: gs

/-- `"-".replace("-", "_")` on a crate directory name (lines 303, 434, 666). -/
def dashToUnderscore (s : Str) : Str := s.map (fun c => if c = '-' then '_' else c)

/-- `"_".replace("_", "-")` (line 547). -/
def underscoreToDash (s : Str) : Str := s.map (fun c => if c = '_' then '-' else c)

/-- `"::".join(parts)`. -/
def joinColons : List Str → Str
  | [] => []
  | [x] => x
  | x :: y :: rest => x ++ ("::".data ++ joinColons (y :: rest))

/-- The qualified-name construction from a repository-relative path and a
symbol name, duplicated verbatim in the source at lines 300-329
(`extract_qualified_name_from_location`), 431-458
(`find_enclosing_function`) and 664-691
(`construct_qualified_name_from_file`): split the path on `/`; under
`crates/<dir>/` the crate is `<dir>` with `-` replaced by `_`; the module
path is the remaining components minus a leading `src`, with a trailing
`.rs` stripped and a final `lib`/`mod` component dropped. -/
def qualifiedFromPath (relPath symName : Str) : Str :=
  match splitChar '/' relPath with
  | p0 :: p1 :: rest =>
    if p0 = "crates".data then
      let crate := dashToUnderscore p1
      match rest with
      | [] => crate ++ ("::".data ++ symName)
      | r0 :: rrest =>
        let mp1 := if r0 = "src".data then rrest else r0 :: rrest
        let mp2 :=
          if hmp : mp1 = [] then mp1
          else
            let last0 := mp1.getLast hmp
            let last1 := if (".rs".data).isSuffixOf last0
              then last0.take (last0.length - 3) else last0
            if last1 = "lib".data ∨ last1 = "mod".data then mp1.dropLast
            else mp1.dropLast ++ [last1]
        if mp2 ≠ [] then crate ++ ("::".data ++ (joinColons mp2 ++ ("::".data ++ symName)))
        else crate ++ ("::".data ++ symName)
    else symName
  | _ => symName

/-- `rel_path` computation (lines 295-298, 354-357, 659-662): strip the
repo-root prefix, then `lstrip("/")`. -/
def relFromRepo (repoRoot filePath : Str) : Str :=
  if repoRoot.isPrefixOf filePath then
    (filePath.drop repoRoot.length).dropWhile (fun c => c = '/')
  else filePath

/-- An LSP `Position` (0-indexed line and character), dataclass at
lines 29-33. -/
structure Pos where
  line : Nat
  character : Nat

/-- An LSP `Location` (lines 36-41); `stop` is the range's `end`. -/
structure Location where
  uri : Str
  start : Pos
  stop : Pos

/-- One `workspace/symbol` result as `resolve_qualified_name_to_location`
reads it (lines 535-554): `location.uri`, `location.range.start`. -/
structure WsRecord where
  name : Str
  container : Str
  uri : Str
  line : Nat
  col : Nat

/-- The environment one query executes against: the subprocess's parsed
replies per LSP method (`find_references` / `find_implementations` /
`find_definition` / `workspace_symbol` / `document_symbols`), the
filesystem (`open(...).readlines()`), and `lsp.repo_path`.  Pure functions:
the per-file symbol cache (lines 336-337, 362-371) memoizes `docsyms` and
is value-transparent. -/
structure Lsp where
  repoPath : Str
  refs : Str → Int → Int → List Location
  impls : Str → Int → Int → List Location
  defns : Str → Int → Int → List Location
  wsym : Str → List WsRecord
  docsyms : Str → List Sym
  fs : Str → Option (List Str)

/-- `find_enclosing_function` (lines 340-458): strip `file://`, compute the
repo-relative path, fetch (cached) document symbols, search for the
containing function, and qualify its name by the file path.  A falsy
(`None` or empty) search result yields `None` (line 428). -/
def findEnclosingFunction (lsp : Lsp) (loc : Location) : Option Str :=
  if ("file://".data).isPrefixOf loc.uri then
    match findContainingFunction loc.start.line
        (lsp.docsyms (relFromRepo lsp.repoPath (loc.uri.drop 7))) with
    | none => none
    | some fn =>
      if fn = [] then none
      else some (qualifiedFromPath (relFromRepo lsp.repoPath (loc.uri.drop 7)) fn)
  else none

/-- Two records on disjoint line ranges. -/
def disjB (a b : Sym) : Bool := a.endLine < b.startLine || b.endLine < a.startLine

mutual

/-- Well-formed document-symbol records: nonempty names, and siblings on
pairwise disjoint line ranges at every level. -/
def wfSym : Sym → Bool
  | Sym.mk nm _ _ _ _ ch => (nm ≠ []) && wfList ch

def wfList : List Sym → Bool
  | [] => true
  | s :: rest => wfSym s && rest.all (fun t => disjB s t) && wfList rest

end

/-- Does any function-kind record in the forest contain the line? -/
def hasContainingFun (refLine : Nat) : List Sym → Bool
  | [] => false
  | s :: rest =>
    ((s.startLine ≤ refLine && refLine ≤ s.endLine) && isFunKind s.kind)
    || hasContainingFun refLine s.children || hasContainingFun refLine rest
termination_by l => sizeOf l
decreasing_by
  all_goals cases s
  all_goals simp [Sym.children]
  all_goals omega

/-- Modelled from the spec (section 4.5, enclosing-declaration search):
recursively scan the symbol tree for the innermost function/method record
whose line range contains the reference line; when a parent and a child
both contain the line the child wins; the qualified name uses the matched
record's own name.  Compared below with `find_containing_function` as
embedded from the source. -/
def specInnermost (refLine : Nat) (parentName : Str) : List Sym → Option Str
  | [] => none
  | s :: rest =>
    if s.startLine ≤ refLine ∧ refLine ≤ s.endLine then
      match specInnermost refLine (mkFullName parentName s) s.children with
      | some c => some c
      | none =>
        if isFunKind s.kind then some (mkFullName parentName s)
        else specInnermost refLine parentName rest
    else specInnermost refLine parentName rest
termination_by l => sizeOf l
decreasing_by
  all_goals cases s
  all_goals simp [Sym.children]
  all_goals omega



theorem wfSym_eq (s : Sym) :
    wfSym s = ((s.name ≠ []) && wfList s.children) := by
  cases s
  rfl

theorem wfList_cons (s : Sym) (rest : List Sym) :
    wfList (s :: rest)
      = (wfSym s && rest.all (fun t => disjB s t) && wfList rest) := rfl

theorem fcfGo_nil (refLine : Nat) (p : Str) (best : Option (Str × Nat)) :
    fcfGo refLine p [] best = Option.map Prod.fst best := by
  rw [fcfGo]

theorem fcfGo_cons (refLine : Nat) (p : Str) (s : Sym) (rest : List Sym)
    (best : Option (Str × Nat)) :
    fcfGo refLine p (s :: rest) best =
      if s.startLine ≤ refLine ∧ refLine ≤ s.endLine then
        match (if s.children.isEmpty then none
               else fcfGo refLine (mkFullName p s) s.children none) with
        | some c =>
          if c ≠ [] then some c
          else fcfGo refLine p rest (updateBest s (mkFullName p s) best)
        | none => fcfGo refLine p rest (updateBest s (mkFullName p s) best)
      else fcfGo refLine p rest best := by
  rw [fcfGo]

theorem specInnermost_nil (refLine : Nat) (p : Str) :
    specInnermost refLine p [] = none := by
  rw [specInnermost]

theorem specInnermost_cons (refLine : Nat) (p : Str) (s : Sym) (rest : List Sym) :
    specInnermost refLine p (s :: rest) =
      if s.startLine ≤ refLine ∧ refLine ≤ s.endLine then
        match specInnermost refLine (mkFullName p s) s.children with
        | some c => some c
        | none =>
          if isFunKind s.kind then some (mkFullName p s)
          else specInnermost refLine p rest
      else specInnermost refLine p rest := by
  rw [specInnermost]

theorem hasContainingFun_cons (refLine : Nat) (s : Sym) (rest : List Sym) :
    hasContainingFun refLine (s :: rest)
      = (((s.startLine ≤ refLine && refLine ≤ s.endLine) && isFunKind s.kind)
        || hasContainingFun refLine s.children || hasContainingFun refLine rest) := by
  rw [hasContainingFun]

theorem fcfGo_no_contain (refLine : Nat) : ∀ (l : List Sym) (p : Str)
    (best : Option (Str × Nat)),
    (∀ s ∈ l, ¬(s.startLine ≤ refLine ∧ refLine ≤ s.endLine)) →
    fcfGo refLine p l best = Option.map Prod.fst best := by
  intro l
  induction l with
  | nil => intro p best h; exact fcfGo_nil refLine p best
  | cons s rest ih =>
    intro p best h
    rw [fcfGo_cons]
    rw [if_neg (h s (List.mem_cons_self s rest))]
    exact ih p best (fun t ht => h t (List.mem_cons_of_mem s ht))

theorem specInnermost_no_contain (refLine : Nat) : ∀ (l : List Sym) (p : Str),
    (∀ s ∈ l, ¬(s.startLine ≤ refLine ∧ refLine ≤ s.endLine)) →
    specInnermost refLine p l = none := by
  intro l
  induction l with
  | nil => intro p h; exact specInnermost_nil refLine p
  | cons s rest ih =>
    intro p h
    rw [specInnermost_cons]
    rw [if_neg (h s (List.mem_cons_self s rest))]
    exact ih p (fun t ht => h t (List.mem_cons_of_mem s ht))

theorem no_contain_of_disj (refLine : Nat) (s : Sym) (rest : List Sym)
    (hdisj : rest.all (fun t => disjB s t) = true)
    (hcont : s.startLine ≤ refLine ∧ refLine ≤ s.endLine) :
    ∀ t ∈ rest, ¬(t.startLine ≤ refLine ∧ refLine ≤ t.endLine) := by
  intro t ht hc
  have hd := List.all_eq_true.mp hdisj t ht
  unfold disjB at hd
  rw [Bool.or_eq_true] at hd
  rcases hd with h1 | h1
  · have h2 := of_decide_eq_true h1
    omega
  · have h2 := of_decide_eq_true h1
    omega

theorem mkFullName_ne (p : Str) (s : Sym) (h : s.name ≠ []) : mkFullName p s ≠ [] := by
  unfold mkFullName
  split
  · rename_i hc
    intro hcontra
    exact hc (List.append_eq_nil.mp hcontra).1
  · split
    · rename_i _ hp
      intro hcontra
      exact hp (List.append_eq_nil.mp hcontra).1
    · exact h

theorem isEmpty_eq_nil {α : Type} {l : List α} (h : l.isEmpty = true) : l = [] := by
  cases l with
  | nil => rfl
  | cons a rest => cases h

theorem specInnermost_ne (refLine : Nat) : (l : List Sym) → (p : Str) →
    wfList l = true → ∀ r, specInnermost refLine p l = some r → r ≠ []
  | [], p, h => by
    intro r hr
    rw [specInnermost_nil] at hr
    cases hr
  | s :: rest, p, h => by
    intro r hr
    have h2 := h
    rw [wfList_cons, Bool.and_eq_true, Bool.and_eq_true, wfSym_eq, Bool.and_eq_true] at h2
    obtain ⟨⟨⟨hname, hch⟩, hdisj⟩, hrest⟩ := h2
    have hname2 : s.name ≠ [] := of_decide_eq_true hname
    rw [specInnermost_cons] at hr
    by_cases hcont : s.startLine ≤ refLine ∧ refLine ≤ s.endLine
    · rw [if_pos hcont] at hr
      cases hm : specInnermost refLine (mkFullName p s) s.children with
      | some c =>
        rw [hm] at hr
        injection hr with hr2
        subst hr2
        exact specInnermost_ne refLine s.children (mkFullName p s) hch c hm
      | none =>
        rw [hm] at hr
        by_cases hfun : isFunKind s.kind = true
        · rw [if_pos hfun] at hr
          injection hr with hr2
          subst hr2
          exact mkFullName_ne p s hname2
        · rw [if_neg hfun] at hr
          exact specInnermost_ne refLine rest p hrest r hr
    · rw [if_neg hcont] at hr
      exact specInnermost_ne refLine rest p hrest r hr
termination_by l => sizeOf l
decreasing_by
  all_goals cases s
  all_goals simp [Sym.children]
  all_goals omega

theorem fcfGo_eq_spec (refLine : Nat) : (l : List Sym) → (p : Str) →
    wfList l = true → fcfGo refLine p l none = specInnermost refLine p l
  | [], p, h => by
    rw [fcfGo_nil, specInnermost_nil]
    rfl
  | s :: rest, p, h => by
    have h2 := h
    rw [wfList_cons, Bool.and_eq_true, Bool.and_eq_true, wfSym_eq, Bool.and_eq_true] at h2
    obtain ⟨⟨⟨hname, hch⟩, hdisj⟩, hrest⟩ := h2
    have hname2 : s.name ≠ [] := of_decide_eq_true hname
    rw [fcfGo_cons, specInnermost_cons]
    by_cases hcont : s.startLine ≤ refLine ∧ refLine ≤ s.endLine
    · rw [if_pos hcont, if_pos hcont]
      have hchild : (if s.children.isEmpty then none
              else fcfGo refLine (mkFullName p s) s.children none)
          = specInnermost refLine (mkFullName p s) s.children := by
        by_cases hce : s.children.isEmpty
        · rw [if_pos hce, isEmpty_eq_nil hce, specInnermost_nil]
        · rw [if_neg hce]
          exact fcfGo_eq_spec refLine s.children (mkFullName p s) hch
      rw [hchild]
      have hnorest : ∀ t ∈ rest, ¬(t.startLine ≤ refLine ∧ refLine ≤ t.endLine) :=
        no_contain_of_disj refLine s rest hdisj hcont
      cases hm : specInnermost refLine (mkFullName p s) s.children with
      | some c =>
        have hcne : c ≠ [] := specInnermost_ne refLine s.children (mkFullName p s) hch c hm
        show (if c ≠ [] then some c
              else fcfGo refLine p rest (updateBest s (mkFullName p s) none)) = some c
        rw [if_pos hcne]
      | none =>
        show fcfGo refLine p rest (updateBest s (mkFullName p s) none)
            = if isFunKind s.kind then some (mkFullName p s)
              else specInnermost refLine p rest
        rw [fcfGo_no_contain refLine rest p _ hnorest,
            specInnermost_no_contain refLine rest p hnorest]
        unfold updateBest
        by_cases hfun : isFunKind s.kind = true
        · rw [if_pos hfun, if_pos hfun]
          rfl
        · rw [if_neg hfun, if_neg hfun]
          rfl
    · rw [if_neg hcont, if_neg hcont]
      exact fcfGo_eq_spec refLine rest p hrest
termination_by l => sizeOf l
decreasing_by
  all_goals cases s
  all_goals simp [Sym.children]
  all_goals omega

theorem updateBest_cases (s : Sym) (fullName : Str) (best : Option (Str × Nat))
    (a : Str) (b : Nat) :
    updateBest s fullName best = some (a, b) →
    best = some (a, b) ∨ isFunKind s.kind = true := by
  intro h
  unfold updateBest at h
  split at h
  · rename_i hfun
    right
    exact hfun
  · left
    exact h

theorem fcfGo_found (refLine : Nat) : (l : List Sym) → (p : Str) →
    (best : Option (Str × Nat)) → ∀ r, fcfGo refLine p l best = some r →
    (∃ a b, best = some (a, b) ∧ r = a) ∨ hasContainingFun refLine l = true
  | [], p, best => by
    intro r hr
    rw [fcfGo_nil] at hr
    cases hb : best with
    | none => rw [hb] at hr; cases hr
    | some ab =>
      rw [hb] at hr
      injection hr with hr2
      exact Or.inl ⟨ab.1, ab.2, rfl, hr2.symm⟩
  | s :: rest, p, best => by
    intro r hr
    rw [fcfGo_cons] at hr
    rw [hasContainingFun_cons]
    by_cases hcont : s.startLine ≤ refLine ∧ refLine ≤ s.endLine
    · rw [if_pos hcont] at hr
      cases hm : (if s.children.isEmpty then none
            else fcfGo refLine (mkFullName p s) s.children none) with
      | some c =>
        rw [hm] at hr
        have hr2 : (if c ≠ [] then some c
            else fcfGo refLine p rest (updateBest s (mkFullName p s) best)) = some r := hr
        by_cases hcne : c ≠ []
        · rw [if_pos hcne] at hr2
          have hchild : fcfGo refLine (mkFullName p s) s.children none = some c := by
            by_cases hce : s.children.isEmpty
            · rw [if_pos hce] at hm; cases hm
            · rw [if_neg hce] at hm; exact hm
          rcases fcfGo_found refLine s.children (mkFullName p s) none c hchild with
            ⟨a, b, hb, _⟩ | hcf
          · cases hb
          · rw [hcf]
            simp
        · rw [if_neg hcne] at hr2
          rcases fcfGo_found refLine rest p (updateBest s (mkFullName p s) best) r hr2 with
            ⟨a, b, hb, hra⟩ | hcf
          · rcases updateBest_cases s (mkFullName p s) best a b hb with hbb | hfun
            · exact Or.inl ⟨a, b, hbb, hra⟩
            · right
              rw [hfun]
              simp [hcont.1, hcont.2]
          · rw [hcf]
            simp
      | none =>
        rw [hm] at hr
        have hr2 : fcfGo refLine p rest (updateBest s (mkFullName p s) best) = some r := hr
        rcases fcfGo_found refLine rest p (updateBest s (mkFullName p s) best) r hr2 with
          ⟨a, b, hb, hra⟩ | hcf
        · rcases updateBest_cases s (mkFullName p s) best a b hb with hbb | hfun
          · exact Or.inl ⟨a, b, hbb, hra⟩
          · right
            rw [hfun]
            simp [hcont.1, hcont.2]
        · rw [hcf]
          simp
    · rw [if_neg hcont] at hr
      rcases fcfGo_found refLine rest p best r hr with ⟨a, b, hb, hra⟩ | hcf
      · exact Or.inl ⟨a, b, hb, hra⟩
      · rw [hcf]
        simp
termination_by l => sizeOf l
decreasing_by
  all_goals cases s
  all_goals simp [Sym.children]
  all_goals omega

theorem fcfGo_none_of_no_fun (refLine : Nat) (l : List Sym) (p : Str)
    (h : hasContainingFun refLine l = false) :
    fcfGo refLine p l none = none := by
  cases hr : fcfGo refLine p l none with
  | none => rfl
  | some r =>
    rcases fcfGo_found refLine l p none r hr with ⟨a, b, hb, _⟩ | hcf
    · cases hb
    · rw [hcf] at h
      cases h



theorem updateBest_fun_none (s : Sym) (f : Str) (hfun : isFunKind s.kind = true) :
    updateBest s f none = some (f, funcSpan s) := by
  unfold updateBest
  rw [if_pos hfun]

theorem updateBest_fun_some_lt (s : Sym) (f b0 : Str) (bs : Nat)
    (hfun : isFunKind s.kind = true) (hlt : funcSpan s < bs) :
    updateBest s f (some (b0, bs)) = some (f, funcSpan s) := by
  unfold updateBest
  rw [if_pos hfun]
  show (if funcSpan s < bs then some (f, funcSpan s) else some (b0, bs))
      = some (f, funcSpan s)
  rw [if_pos hlt]

theorem updateBest_fun_some_ge (s : Sym) (f b0 : Str) (bs : Nat)
    (hfun : isFunKind s.kind = true) (hge : ¬funcSpan s < bs) :
    updateBest s f (some (b0, bs)) = some (b0, bs) := by
  unfold updateBest
  rw [if_pos hfun]
  show (if funcSpan s < bs then some (f, funcSpan s) else some (b0, bs))
      = some (b0, bs)
  rw [if_neg hge]

theorem updateBest_notfun (s : Sym) (f : Str) (best : Option (Str × Nat))
    (hfun : ¬isFunKind s.kind = true) :
    updateBest s f best = best := by
  unfold updateBest
  rw [if_neg hfun]

theorem fcfGo_flat_min (refLine : Nat) : ∀ (l : List Sym) (p : Str)
    (best : Option (Str × Nat)) (r : Str),
    (∀ s ∈ l, s.children = []) →
    fcfGo refLine p l best = some r →
    (∃ sz, best = some (r, sz)
        ∧ ∀ t ∈ l, isFunKind t.kind = true →
            t.startLine ≤ refLine ∧ refLine ≤ t.endLine → sz ≤ funcSpan t)
    ∨ (∃ s, s ∈ l ∧ (s.startLine ≤ refLine ∧ refLine ≤ s.endLine)
        ∧ isFunKind s.kind = true ∧ r = mkFullName p s
        ∧ (∀ a sz2, best = some (a, sz2) → funcSpan s < sz2)
        ∧ ∀ t ∈ l, isFunKind t.kind = true →
            t.startLine ≤ refLine ∧ refLine ≤ t.endLine → funcSpan s ≤ funcSpan t) := by
  intro l
  induction l with
  | nil =>
    intro p best r hflat hr
    rw [fcfGo_nil] at hr
    cases hb : best with
    | none => rw [hb] at hr; cases hr
    | some ab =>
      rw [hb] at hr
      injection hr with hr2
      left
      refine ⟨ab.2, ?_, ?_⟩
      · rw [← hr2]
      · intro t ht
        cases ht
  | cons s rest ih =>
    intro p best r hflat hr
    have hsc : s.children = [] := hflat s (List.mem_cons_self s rest)
    have hflatrest : ∀ t ∈ rest, t.children = [] :=
      fun t ht => hflat t (List.mem_cons_of_mem s ht)
    rw [fcfGo_cons, hsc] at hr
    by_cases hcont : s.startLine ≤ refLine ∧ refLine ≤ s.endLine
    · rw [if_pos hcont] at hr
      have hr2 : fcfGo refLine p rest (updateBest s (mkFullName p s) best) = some r := hr
      rcases ih p (updateBest s (mkFullName p s) best) r hflatrest hr2 with
        ⟨sz, hb, hlb⟩ | ⟨t0, hmem, hcont0, hfun0, hreq, hbb, hlb⟩
      · by_cases hfun : isFunKind s.kind = true
        · cases hbest : best with
          | none =>
            rw [hbest, updateBest_fun_none s _ hfun] at hb
            have hp := Option.some.inj hb
            have hfst : mkFullName p s = r := congrArg Prod.fst hp
            have hsnd : funcSpan s = sz := congrArg Prod.snd hp
            refine Or.inr ⟨s, List.mem_cons_self s rest, hcont, hfun, hfst.symm, ?_, ?_⟩
            · intro a sz2 hh
              cases hh
            · intro t ht htf htc
              rcases List.mem_cons.mp ht with h1 | h1
              · rw [h1]
              · have := hlb t h1 htf htc
                omega
          | some ab =>
            obtain ⟨b0, bs⟩ := ab
            by_cases hlt : funcSpan s < bs
            · rw [hbest, updateBest_fun_some_lt s _ b0 bs hfun hlt] at hb
              have hp := Option.some.inj hb
              have hfst : mkFullName p s = r := congrArg Prod.fst hp
              have hsnd : funcSpan s = sz := congrArg Prod.snd hp
              refine Or.inr ⟨s, List.mem_cons_self s rest, hcont, hfun, hfst.symm, ?_, ?_⟩
              · intro a sz2 hh
                have hp2 := Option.some.inj hh
                have : bs = sz2 := congrArg Prod.snd hp2
                omega
              · intro t ht htf htc
                rcases List.mem_cons.mp ht with h1 | h1
                · rw [h1]
                · have := hlb t h1 htf htc
                  omega
            · rw [hbest, updateBest_fun_some_ge s _ b0 bs hfun hlt] at hb
              have hp := Option.some.inj hb
              have hfst : b0 = r := congrArg Prod.fst hp
              have hsnd : bs = sz := congrArg Prod.snd hp
              left
              refine ⟨sz, ?_, ?_⟩
              · rw [hfst, hsnd]
              · intro t ht htf htc
                rcases List.mem_cons.mp ht with h1 | h1
                · rw [h1] at htf htc ⊢
                  omega
                · exact hlb t h1 htf htc
        · rw [updateBest_notfun s _ best hfun] at hb
          left
          refine ⟨sz, hb, ?_⟩
          intro t ht htf htc
          rcases List.mem_cons.mp ht with h1 | h1
          · rw [h1] at htf
            exact absurd htf hfun
          · exact hlb t h1 htf htc
      · refine Or.inr ⟨t0, List.mem_cons_of_mem s hmem, hcont0, hfun0, hreq, ?_, ?_⟩
        · intro a sz2 hbs
          by_cases hfun : isFunKind s.kind = true
          · by_cases hlt : funcSpan s < sz2
            · have hub : updateBest s (mkFullName p s) best
                  = some (mkFullName p s, funcSpan s) := by
                rw [hbs]
                exact updateBest_fun_some_lt s _ a sz2 hfun hlt
              have := hbb (mkFullName p s) (funcSpan s) hub
              omega
            · have hub : updateBest s (mkFullName p s) best = some (a, sz2) := by
                rw [hbs]
                exact updateBest_fun_some_ge s _ a sz2 hfun hlt
              exact hbb a sz2 hub
          · have hub : updateBest s (mkFullName p s) best = some (a, sz2) := by
              rw [updateBest_notfun s _ best hfun]
              exact hbs
            exact hbb a sz2 hub
        · intro t ht htf htc
          rcases List.mem_cons.mp ht with h1 | h1
          · subst h1
            by_cases hfun2 : isFunKind t.kind = true
            · cases hbest : best with
              | none =>
                have hub : updateBest t (mkFullName p t) best
                    = some (mkFullName p t, funcSpan t) := by
                  rw [hbest]
                  exact updateBest_fun_none t _ hfun2
                have := hbb (mkFullName p t) (funcSpan t) hub
                omega
              | some ab =>
                obtain ⟨b0, bs⟩ := ab
                by_cases hlt : funcSpan t < bs
                · have hub : updateBest t (mkFullName p t) best
                      = some (mkFullName p t, funcSpan t) := by
                    rw [hbest]
                    exact updateBest_fun_some_lt t _ b0 bs hfun2 hlt
                  have := hbb (mkFullName p t) (funcSpan t) hub
                  omega
                · have hub : updateBest t (mkFullName p t) best = some (b0, bs) := by
                    rw [hbest]
                    exact updateBest_fun_some_ge t _ b0 bs hfun2 hlt
                  have := hbb b0 bs hub
                  omega
            · exact absurd htf hfun2
          · exact hlb t h1 htf htc
    · rw [if_neg hcont] at hr
      rcases ih p best r hflatrest hr with
        ⟨sz, hb, hlb⟩ | ⟨t0, hmem, hcont0, hfun0, hreq, hbb, hlb⟩
      · left
        refine ⟨sz, hb, ?_⟩
        intro t ht htf htc
        rcases List.mem_cons.mp ht with h1 | h1
        · rw [h1] at htc
          exact absurd htc hcont
        · exact hlb t h1 htf htc
      · refine Or.inr ⟨t0, List.mem_cons_of_mem s hmem, hcont0, hfun0, hreq, hbb, ?_⟩
        intro t ht htf htc
        rcases List.mem_cons.mp ht with h1 | h1
        · rw [h1] at htc
          exact absurd htc hcont
        · exact hlb t h1 htf htc



/-- C4: for every reference location, the enclosing-declaration search
(`find_enclosing_function`) resolves to the qualified name built from the
innermost document-symbol record of function/method kind containing the
reference line, using that record's own name (never a text scan), and
returns none when no function-kind record contains the line.  First
conjunct: no containing function-kind record anywhere in the (possibly
nested) tree gives none.  Second conjunct: on a well-formed nested tree
(nonempty names, siblings on disjoint line ranges) the result is exactly
the innermost containing function (a containing child beats its parent),
qualified by the file path.  Third conjunct: on a flat
(`SymbolInformation`-style) list the returned name comes from a containing
function-kind record of minimal line span. -/
theorem c4_enclosing_function_innermost (lsp : Lsp) (loc : Location)
    (huri : ("file://".data).isPrefixOf loc.uri = true) :
    (hasContainingFun loc.start.line
        (lsp.docsyms (relFromRepo lsp.repoPath (loc.uri.drop 7))) = false →
      findEnclosingFunction lsp loc = none)
    ∧ (wfList (lsp.docsyms (relFromRepo lsp.repoPath (loc.uri.drop 7))) = true →
      findEnclosingFunction lsp loc
        = Option.map (qualifiedFromPath (relFromRepo lsp.repoPath (loc.uri.drop 7)))
            (specInnermost loc.start.line []
              (lsp.docsyms (relFromRepo lsp.repoPath (loc.uri.drop 7)))))
    ∧ ((∀ s ∈ lsp.docsyms (relFromRepo lsp.repoPath (loc.uri.drop 7)),
          s.children = []) →
      ∀ name, findEnclosingFunction lsp loc = some name →
        ∃ s, s ∈ lsp.docsyms (relFromRepo lsp.repoPath (loc.uri.drop 7))
          ∧ (s.startLine ≤ loc.start.line ∧ loc.start.line ≤ s.endLine)
          ∧ isFunKind s.kind = true
          ∧ name = qualifiedFromPath (relFromRepo lsp.repoPath (loc.uri.drop 7))
              (mkFullName [] s)
          ∧ ∀ t ∈ lsp.docsyms (relFromRepo lsp.repoPath (loc.uri.drop 7)),
              isFunKind t.kind = true →
              t.startLine ≤ loc.start.line ∧ loc.start.line ≤ t.endLine →
              funcSpan s ≤ funcSpan t) := by
  refine ⟨?_, ?_, ?_⟩
  · intro hno
    unfold findEnclosingFunction
    rw [if_pos huri]
    unfold findContainingFunction
    rw [fcfGo_none_of_no_fun loc.start.line _ [] hno]
  · intro hwf
    unfold findEnclosingFunction
    rw [if_pos huri]
    unfold findContainingFunction
    rw [fcfGo_eq_spec loc.start.line _ [] hwf]
    cases hm : specInnermost loc.start.line []
        (lsp.docsyms (relFromRepo lsp.repoPath (loc.uri.drop 7))) with
    | none => rfl
    | some fn =>
      have hne : fn ≠ [] := specInnermost_ne loc.start.line _ [] hwf fn hm
      show (if fn = [] then none
          else some (qualifiedFromPath (relFromRepo lsp.repoPath (loc.uri.drop 7)) fn))
        = some (qualifiedFromPath (relFromRepo lsp.repoPath (loc.uri.drop 7)) fn)
      rw [if_neg hne]
  · intro hflat name hname
    unfold findEnclosingFunction at hname
    rw [if_pos huri] at hname
    cases hm : findContainingFunction loc.start.line
        (lsp.docsyms (relFromRepo lsp.repoPath (loc.uri.drop 7))) with
    | none =>
      rw [hm] at hname
      cases hname
    | some fn =>
      rw [hm] at hname
      have hname2 : (if fn = [] then none
          else some (qualifiedFromPath (relFromRepo lsp.repoPath (loc.uri.drop 7)) fn))
          = some name := hname
      by_cases hne : fn = []
      · rw [if_pos hne] at hname2
        cases hname2
      · rw [if_neg hne] at hname2
        have hq := Option.some.inj hname2
        unfold findContainingFunction at hm
        rcases fcfGo_flat_min loc.start.line _ [] none fn hflat hm with
          ⟨sz, hb, _⟩ | ⟨s, hmem, hcont, hfun, hreq, _, hlb⟩
        · cases hb
        · exact ⟨s, hmem, hcont, hfun, by rw [← hq, hreq], hlb⟩

/-- C4 witness: `parse_args` occupies lines 100-140 of
`crates/core/src/cli.rs`; a reference at line 120 resolves to
`core::cli::parse_args`. -/
def demoSymsCli : List Sym :=
  [Sym.mk ("parse_args".data) 12 100 140 [] []]

def demoLsp4 : Lsp :=
  { repoPath := "/repo".data,
    refs := fun _ _ _ => [],
    impls := fun _ _ _ => [],
    defns := fun _ _ _ => [],
    wsym := fun _ => [],
    docsyms := fun p => if p = "crates/core/src/cli.rs".data then demoSymsCli else [],
    fs := fun _ => none }

def demoLoc4 : Location :=
  { uri := "file:///repo/crates/core/src/cli.rs".data,
    start := { line := 120, character := 8 },
    stop := { line := 120, character := 18 } }

theorem c4_enclosing_function_innermost_witness :
    wfList (demoLsp4.docsyms
      (relFromRepo demoLsp4.repoPath (demoLoc4.uri.drop 7))) = true
    ∧ findEnclosingFunction demoLsp4 demoLoc4 = some ("core::cli::parse_args".data) := by
  refine ⟨by decide, ?_⟩
  have h := (c4_enclosing_function_innermost demoLsp4 demoLoc4 (by decide)).2.1 (by decide)
  rw [h]
  have h2 : specInnermost 120 [] demoSymsCli = some ("parse_args".data) := by
    show specInnermost 120 [] [Sym.mk ("parse_args".data) 12 100 140 [] []]
        = some ("parse_args".data)
    rw [specInnermost_cons]
    rw [if_pos (by decide :
      (Sym.mk ("parse_args".data) 12 100 140 [] []).startLine ≤ 120
        ∧ 120 ≤ (Sym.mk ("parse_args".data) 12 100 140 [] []).endLine)]
    rw [show (Sym.mk ("parse_args".data) 12 100 140 [] []).children = [] from rfl]
    rw [specInnermost_nil]
    show (if isFunKind (Sym.mk ("parse_args".data) 12 100 140 [] []).kind
          then some (mkFullName [] (Sym.mk ("parse_args".data) 12 100 140 [] []))
          else specInnermost 120 [] []) = some ("parse_args".data)
    rw [if_pos (by decide :
      isFunKind (Sym.mk ("parse_args".data) 12 100 140 [] []).kind = true)]
    decide
  show Option.map (qualifiedFromPath
      (relFromRepo demoLsp4.repoPath (demoLoc4.uri.drop 7)))
      (specInnermost 120 [] demoSymsCli) = some ("core::cli::parse_args".data)
  rw [h2]
  decide



/-- Word characters for the identifier expansion (lines 282-285): Python
`isalnum` (ASCII range in this model) or underscore. -/
def identChar (c : Char) : Bool :=
  (48 ≤ c.toNat && c.toNat ≤ 57) || (65 ≤ c.toNat && c.toNat ≤ 90)
  || (97 ≤ c.toNat && c.toNat ≤ 122) || c = '_'

/-- The backward scan of lines 282-283: `while start > 0 and
(line[start-1].isalnum() or line[start-1] == '_'): start -= 1`.  Returns
none for the IndexError Python raises when `start-1` is past the end of the
line (caught by the handler at line 331). -/
def expandStart (line : Str) : Nat → Option Nat
  | 0 => some 0
  | s + 1 =>
    match line.get? s with
    | none => none
    | some ch => if identChar ch then expandStart line s else some (s + 1)

/-- Count of word characters at the head of a string. -/
def leadingIdent : Str → Nat
  | [] => 0
  | c :: rest => if identChar c then leadingIdent rest + 1 else 0

/-- The forward scan of lines 284-285: `while end < len(line) and
(line[end].isalnum() or line[end] == '_'): end += 1`, i.e. advance over the
word characters at the head of the suffix starting at `end`. -/
def expandEnd (line : Str) (e : Nat) : Nat := e + leadingIdent (line.drop e)

/-- The ASCII whitespace Python `str.strip()` removes. -/
def pyIsSpace (c : Char) : Bool :=
  c.toNat = 32 || c.toNat = 9 || c.toNat = 10 || c.toNat = 13
  || c.toNat = 11 || c.toNat = 12

/-- Python `str.strip()`. -/
def pyStrip (s : Str) : Str :=
  ((s.dropWhile pyIsSpace).reverse.dropWhile pyIsSpace).reverse

/-- `extract_qualified_name_from_location` (lines 254-333): strip `file://`,
read the file, expand the reported range outward over word characters,
strip, and qualify the recovered identifier by the file path. -/
def extractQualifiedNameFromLocation (lsp : Lsp) (loc : Location) : Option Str :=
  if ("file://".data).isPrefixOf loc.uri then
    match lsp.fs (loc.uri.drop 7) with
    | none => none
    | some lines =>
      if loc.start.line < lines.length then
        match lines.get? loc.start.line with
        | none => none
        | some line =>
          match expandStart line loc.start.character with
          | none => none
          | some s =>
            if pyStrip ((line.take (expandEnd line loc.stop.character)).drop s) = []
            then none
            else some (qualifiedFromPath
              (relFromRepo lsp.repoPath (loc.uri.drop 7))
              (pyStrip ((line.take (expandEnd line loc.stop.character)).drop s)))
      else none
  else none

/-- Digit-string value for Python `int()`: digits with single underscores
strictly between digits. -/
def digitsVal (prevDigit : Bool) (acc : Nat) : Str → Option Nat
  | [] => if prevDigit then some acc else none
  | c :: rest =>
    if c.isDigit then digitsVal true (acc * 10 + (c.toNat - 48)) rest
    else if c = '_' && prevDigit then digitsVal false acc rest
    else none

/-- Python `int(str)` (lines 480-481): optional surrounding whitespace,
optional sign, then a nonempty digit string. -/
def pyInt (s : Str) : Option Int :=
  match pyStrip s with
  | '-' :: rest => (digitsVal false 0 rest).map (fun n => -(n : Int))
  | '+' :: rest => (digitsVal false 0 rest).map (fun n => (n : Int))
  | t => (digitsVal false 0 t).map (fun n => (n : Int))

/-- Left-to-right split on a character with a maximum number of splits. -/
def splitCharMax (sep : Char) : Nat → Str → List Str
  | _, [] => [[]]
  | 0, s => [s]
  | m + 1, c :: rest =>
    if c = sep then [] :: splitCharMax sep m rest
    else
      match splitCharMax sep (m + 1) rest with
      | [] => [[c]]
      | g :: gs => (c :: g) :: gs

/-- Python `target.rsplit(":", 2)` (line 473). -/
def pyRsplitColon2 (s : Str) : List Str :=
  ((splitCharMax ':' 2 s.reverse).map List.reverse).reverse

def refsMethod : Str := "textDocument/references".data

def implMethod : Str := "textDocument/implementation".data

def defnMethod : Str := "textDocument/definition".data

/-- `list(set(...))` (line 513): deduplication, modelled with
first-occurrence order. -/
def dedup (l : List Str) : List Str := l.eraseDups

/-- Lines 502-513: resolve each location, keep truthy names, dedup. -/
def collectNames (resolve1 : Location → Option Str) (locs : List Location) : List Str :=
  dedup (locs.foldl (fun acc loc =>
    match resolve1 loc with
    | some qn => if qn = [] then acc else acc ++ [qn]
    | none => acc) [])

/-- Lines 472-484: split the target as `path:line:col` and convert the
one-indexed line and column to zero-indexed. -/
def parseTarget (target : Str) : Option (Str × Int × Int) :=
  match pyRsplitColon2 target with
  | [fp, ls, cs] =>
    match pyInt ls, pyInt cs with
    | some l, some c => some (fp, l - 1, c - 1)
    | _, _ => none
  | _ => none

/-- `process_single_hop_query` (lines 461-513): empty or malformed targets
and unknown methods return the empty list (the `ValueError` from `int()` is
caught at lines 482-484); references resolve each location to its enclosing
function, implementations and definitions extract the symbol directly. -/
def processSingleHopQuery (lsp : Lsp) (method target : Str) : List Str :=
  if target = [] then []
  else
    match parseTarget target with
    | none => []
    | some (fp, line, col) =>
      if method = refsMethod then
        collectNames (findEnclosingFunction lsp) (lsp.refs fp line col)
      else if method = implMethod then
        collectNames (extractQualifiedNameFromLocation lsp) (lsp.impls fp line col)
      else if method = defnMethod then
        collectNames (extractQualifiedNameFromLocation lsp) (lsp.defns fp line col)
      else []

/-- Python `s.split(sep)` for a nonempty separator, with explicit fuel (one
unit per character consumed) so the function is structurally recursive. -/
def pySplitSepFuel (sep : Str) : Nat → Str → List Str
  | _, [] => [[]]
  | 0, s => [s]
  | fuel + 1, c :: rest =>
    if sep ≠ [] ∧ sep.isPrefixOf (c :: rest) = true then
      [] :: pySplitSepFuel sep fuel ((c :: rest).drop sep.length)
    else
      match pySplitSepFuel sep fuel rest with
      | [] => [[c]]
      | g :: gs => (c :: g) :: gs

/-- `qualified_name.split("::")` (line 522). -/
def pySplitStr (sep s : Str) : List Str := pySplitSepFuel sep s.length s

/-- `s.split(stop)[0]` — everything before the first occurrence. -/
def takeUntil (stopc : Char) (s : Str) : Str := s.takeWhile (fun c => c ≠ stopc)

/-- Python `needle in haystack` substring test. -/
def containsSub (needle : Str) : Str → Bool
  | [] => needle.isPrefixOf []
  | c :: rest => needle.isPrefixOf (c :: rest) || containsSub needle rest

/-- The candidate loop of `resolve_qualified_name_to_location`
(lines 535-561): skip non-file URIs; when the name has more than one
segment, skip candidates whose absolute path mentions neither
`crates/<crate-with-dashes>` nor `crates/<first-segment>`; return the first
surviving candidate's repo-relative path and 0-indexed start position. -/
def rqnlLoop (lsp : Lsp) (parts : List Str) : List WsRecord → Option (Str × Nat × Nat)
  | [] => none
  | w :: rest =>
    if ("file://".data).isPrefixOf w.uri then
      match parts with
      | p0 :: _ :: _ =>
        if containsSub ("crates/".data ++ underscoreToDash p0) (w.uri.drop 7) = false
            ∧ containsSub ("crates/".data ++ p0) (w.uri.drop 7) = false then
          rqnlLoop lsp parts rest
        else
          some (relFromRepo lsp.repoPath (w.uri.drop 7), w.line, w.col)
      | _ =>
        some (relFromRepo lsp.repoPath (w.uri.drop 7), w.line, w.col)
    else rqnlLoop lsp parts rest

/-- `resolve_qualified_name_to_location` (lines 516-566): last `::` segment,
stripped of generic/parameter suffixes, searched via `workspace/symbol`,
filtered for crate-path consistency. -/
def resolveQualifiedNameToLocation (lsp : Lsp) (qn : Str) : Option (Str × Nat × Nat) :=
  if pyStrip (takeUntil '(' (takeUntil '<'
      ((pySplitStr ("::".data) qn).getLastD qn))) = [] then none
  else
    rqnlLoop lsp (pySplitStr ("::".data) qn)
      (lsp.wsym (pyStrip (takeUntil '(' (takeUntil '<'
        ((pySplitStr ("::".data) qn).getLastD qn)))))

/-- One chain step `{method, target}`; absent keys read as `""`
(lines 708, 712). -/
structure Hop where
  method : Str
  target : Str

/-- The synthesized one-indexed target of line 726. -/
def mkTarget (f : Str) (l c : Nat) : Str :=
  f ++ (':' :: natToStr (l + 1)) ++ (':' :: natToStr (c + 1))

/-- One chain step after the first (lines 717-731): the previous step's
surviving names capped at the first 20 in input order, each
reverse-resolved to a location and looked up via the single-hop executor;
the union of the hop outputs, deduplicated. -/
def chainHopStep (lsp : Lsp) (method : Str) (names : List Str) : List Str :=
  dedup ((names.take 20).foldl (fun acc prev =>
    match resolveQualifiedNameToLocation lsp prev with
    | some (f, l, c) => acc ++ processSingleHopQuery lsp method (mkTarget f l c)
    | none => acc) [])

/-- The seed step (lines 710-716): hop 0 runs the single-hop executor on
its explicit target; a falsy target leaves the name set empty. -/
def chainSeed (lsp : Lsp) (first : Hop) : List Str :=
  if first.target = [] then []
  else processSingleHopQuery lsp first.method first.target

/-- `process_chain_query` (lines 694-733). -/
def processChainQuery (lsp : Lsp) (chain : List Hop) : List Str :=
  match chain with
  | [] => []
  | first :: rest =>
    rest.foldl (fun names hop => chainHopStep lsp hop.method names) (chainSeed lsp first)



theorem parseTarget_eq (target fp ls cs : Str) (l c : Int)
    (hsplit : pyRsplitColon2 target = [fp, ls, cs])
    (hl : pyInt ls = some l) (hc : pyInt cs = some c) :
    parseTarget target = some (fp, l - 1, c - 1) := by
  unfold parseTarget
  rw [hsplit]
  show (match pyInt ls, pyInt cs with
        | some l, some c => some (fp, l - 1, c - 1)
        | _, _ => none) = some (fp, l - 1, c - 1)
  rw [hl, hc]

theorem processSingleHop_parsed (lsp : Lsp) (method target fp : Str) (l c : Int)
    (hp : parseTarget target = some (fp, l, c)) (ht : target ≠ []) :
    processSingleHopQuery lsp method target =
      if method = refsMethod then
        collectNames (findEnclosingFunction lsp) (lsp.refs fp l c)
      else if method = implMethod then
        collectNames (extractQualifiedNameFromLocation lsp) (lsp.impls fp l c)
      else if method = defnMethod then
        collectNames (extractQualifiedNameFromLocation lsp) (lsp.defns fp l c)
      else [] := by
  unfold processSingleHopQuery
  rw [if_neg ht, hp]

/-- C5: the one-indexed `path:line:col` target is converted to zero-indexed
coordinates (line-1, col-1) before dispatch for each of the three methods;
in particular `crates/hir/src/lib.rs:42:10` with `textDocument/definition`
dispatches at (41, 9); and a definition result inside
`crates/hir-def/src/resolver.rs` whose identifier text at the reported
range is `resolve_path` extracts the qualified name
`hir_def::resolver::resolve_path`. -/
theorem c5_one_indexed_conversion_and_resolution (lsp : Lsp) :
    (∀ target fp ls cs : Str, ∀ l c : Int,
      pyRsplitColon2 target = [fp, ls, cs] →
      pyInt ls = some l → pyInt cs = some c → target ≠ [] →
      processSingleHopQuery lsp refsMethod target
          = collectNames (findEnclosingFunction lsp) (lsp.refs fp (l - 1) (c - 1))
        ∧ processSingleHopQuery lsp implMethod target
          = collectNames (extractQualifiedNameFromLocation lsp) (lsp.impls fp (l - 1) (c - 1))
        ∧ processSingleHopQuery lsp defnMethod target
          = collectNames (extractQualifiedNameFromLocation lsp) (lsp.defns fp (l - 1) (c - 1)))
    ∧ processSingleHopQuery lsp defnMethod ("crates/hir/src/lib.rs:42:10".data)
        = collectNames (extractQualifiedNameFromLocation lsp)
            (lsp.defns ("crates/hir/src/lib.rs".data) 41 9)
    ∧ (∀ lines : List Str,
        lsp.repoPath = "/repo".data →
        lsp.fs ("/repo/crates/hir-def/src/resolver.rs".data) = some lines →
        lines.get? 10 = some ("pub fn resolve_path(db: &dyn DB) -> PerNs".data) →
        extractQualifiedNameFromLocation lsp
          { uri := "file:///repo/crates/hir-def/src/resolver.rs".data,
            start := { line := 10, character := 7 },
            stop := { line := 10, character := 19 } }
          = some ("hir_def::resolver::resolve_path".data)) := by
  refine ⟨?_, ?_, ?_⟩
  · intro target fp ls cs l c hsplit hl hc ht
    have hp := parseTarget_eq target fp ls cs l c hsplit hl hc
    refine ⟨?_, ?_, ?_⟩
    · rw [processSingleHop_parsed lsp refsMethod target fp (l - 1) (c - 1) hp ht]
      rw [if_pos rfl]
    · rw [processSingleHop_parsed lsp implMethod target fp (l - 1) (c - 1) hp ht]
      rw [if_neg (by decide : ¬(implMethod = refsMethod)), if_pos rfl]
    · rw [processSingleHop_parsed lsp defnMethod target fp (l - 1) (c - 1) hp ht]
      rw [if_neg (by decide : ¬(defnMethod = refsMethod)),
          if_neg (by decide : ¬(defnMethod = implMethod)), if_pos rfl]
  · have hp : parseTarget ("crates/hir/src/lib.rs:42:10".data)
        = some ("crates/hir/src/lib.rs".data, 41, 9) := by decide
    rw [processSingleHop_parsed lsp defnMethod ("crates/hir/src/lib.rs:42:10".data)
      ("crates/hir/src/lib.rs".data) 41 9 hp (by decide)]
    rw [if_neg (by decide : ¬(defnMethod = refsMethod)),
        if_neg (by decide : ¬(defnMethod = implMethod)), if_pos rfl]
  · intro lines hrepo hfs hline
    unfold extractQualifiedNameFromLocation
    rw [if_pos (by decide :
      ("file://".data).isPrefixOf ("file:///repo/crates/hir-def/src/resolver.rs".data) = true)]
    have hdrop : (("file:///repo/crates/hir-def/src/resolver.rs".data) : Str).drop 7
        = "/repo/crates/hir-def/src/resolver.rs".data := by decide
    rw [hdrop, hfs]
    have hlen : 10 < lines.length := by
      by_contra hcon
      rw [List.get?_eq_none.mpr (by omega)] at hline
      cases hline
    dsimp only
    rw [if_pos hlen, hline]
    dsimp only
    rw [hrepo]
    decide

/-- C6: every chain step after the first expands exactly the first 20 names
of the previous step's name set, in input order; with 37 candidates the
remaining 17 contribute no lookups and no results, and steps after the
first are exactly folds of this capped hop over the seed. -/
theorem c6_fanout_cap_twenty (lsp : Lsp) (method : Str) (names : List Str)
    (h : names.length = 37) :
    chainHopStep lsp method names = chainHopStep lsp method (names.take 20)
    ∧ (names.take 20).length = 20
    ∧ (names.drop 20).length = 17
    ∧ ∀ (first : Hop) (rest : List Hop),
        processChainQuery lsp (first :: rest)
          = rest.foldl (fun ns hop => chainHopStep lsp hop.method ns)
              (chainSeed lsp first) := by
  refine ⟨?_, ?_, ?_, ?_⟩
  · unfold chainHopStep
    rw [List.take_take]
    rw [show (20 ⊓ 20 : Nat) = 20 from by decide]
  · rw [List.length_take, h]
    decide
  · rw [List.length_drop, h]
  · intro first rest
    rfl

def demoNames37 : List Str := List.replicate 37 ("x".data)

theorem c6_fanout_cap_twenty_witness :
    demoNames37.length = 37
    ∧ chainHopStep demoLsp4 ("textDocument/references".data) demoNames37
        = chainHopStep demoLsp4 ("textDocument/references".data) (demoNames37.take 20)
    ∧ (demoNames37.take 20).length = 20
    ∧ (demoNames37.drop 20).length = 17 := by
  have h := c6_fanout_cap_twenty demoLsp4 ("textDocument/references".data)
    demoNames37 (by decide)
  exact ⟨by decide, h.1, h.2.1, h.2.2.1⟩

/-- C7: a chain consisting of exactly one step `{method, target}` returns
the same list of qualified names as the plain single-hop query on that
method and target (for an explicit target via the seed hop; for a falsy
target both return the empty list). -/
theorem c7_singleton_chain_equals_single_hop (lsp : Lsp) (method target : Str) :
    processChainQuery lsp [{ method := method, target := target }]
      = processSingleHopQuery lsp method target := by
  show chainSeed lsp { method := method, target := target }
      = processSingleHopQuery lsp method target
  unfold chainSeed
  by_cases ht : target = []
  · rw [if_pos ht]
    unfold processSingleHopQuery
    rw [if_pos ht]
  · rw [if_neg ht]

/-- C10: a single-hop query whose target does not parse as `path:line:col`
with integer line and column (the empty target included), or whose method
is none of references/implementation/definition, returns the empty list;
the `ValueError` Python would raise on a bad integer is caught inside
`process_single_hop_query` (lines 482-484), so the embedded executor is
total. -/
theorem c10_invalid_single_hop_empty (lsp : Lsp) (method target : Str)
    (h : parseTarget target = none
      ∨ (method ≠ refsMethod ∧ method ≠ implMethod ∧ method ≠ defnMethod)) :
    processSingleHopQuery lsp method target = [] := by
  unfold processSingleHopQuery
  by_cases ht : target = []
  · rw [if_pos ht]
  · rw [if_neg ht]
    rcases h with h1 | ⟨h2, h3, h4⟩
    · rw [h1]
    · cases hp : parseTarget target with
      | none => rfl
      | some v =>
        obtain ⟨fp, l, c⟩ := v
        show (if method = refsMethod then
            collectNames (findEnclosingFunction lsp) (lsp.refs fp l c)
          else if method = implMethod then
            collectNames (extractQualifiedNameFromLocation lsp) (lsp.impls fp l c)
          else if method = defnMethod then
            collectNames (extractQualifiedNameFromLocation lsp) (lsp.defns fp l c)
          else []) = []
        rw [if_neg h2, if_neg h3, if_neg h4]

theorem c10_invalid_single_hop_empty_witness :
    (parseTarget ("crates/core/src/cli.rs:not:anint".data) = none)
    ∧ processSingleHopQuery demoLsp4 refsMethod ("crates/core/src/cli.rs:not:anint".data) = []
    ∧ processSingleHopQuery demoLsp4 ("workspace/symbol".data)
        ("crates/core/src/cli.rs:3:4".data) = [] := by
  refine ⟨by decide, ?_, ?_⟩
  · exact c10_invalid_single_hop_empty demoLsp4 refsMethod _ (Or.inl (by decide))
  · exact c10_invalid_single_hop_empty demoLsp4 ("workspace/symbol".data) _
      (Or.inr ⟨by decide, by decide, by decide⟩)



theorem isPrefixOf_self_append (a b : Str) : a.isPrefixOf (a ++ b) = true := by
  induction a with
  | nil => cases b <;> rfl
  | cons c rest ih =>
    show (c == c && rest.isPrefixOf (rest ++ b)) = true
    rw [ih]
    simp

theorem drop7_fileUri (r : Str) : ("file://".data ++ r).drop 7 = r := by
  have h : ("file://".data).length = 7 := rfl
  rw [← h, List.drop_left]

theorem dropWhile_head_not {p : Char → Bool} {l : Str}
    (h : ∀ c, l.head? = some c → p c = false) :
    l.dropWhile p = l := by
  cases l with
  | nil => rfl
  | cons a rest =>
    rw [List.dropWhile_cons]
    rw [h a rfl]
    simp

theorem relFromRepo_append (repo rel : Str)
    (hrel : ∀ c, rel.head? = some c → c ≠ '/') :
    relFromRepo repo (repo ++ ('/' :: rel)) = rel := by
  unfold relFromRepo
  rw [if_pos (isPrefixOf_self_append repo ('/' :: rel))]
  rw [List.drop_left]
  show List.dropWhile (fun c => c = '/') ('/' :: rel) = rel
  rw [List.dropWhile_cons]
  rw [if_pos (by decide : (decide (('/' : Char) = '/')) = true)]
  exact dropWhile_head_not (fun c hc => decide_eq_false (hrel c hc))

theorem expandStart_boundary (pre tail : Str)
    (hpre : pre = [] ∨ ∃ pre0 b, pre = pre0 ++ [b] ∧ identChar b = false) :
    expandStart (pre ++ tail) pre.length = some pre.length := by
  rcases hpre with h | ⟨pre0, b, hpe, hb⟩
  · rw [h]
    rfl
  · rw [hpe]
    have hlen : (pre0 ++ [b]).length = pre0.length + 1 := by
      rw [List.length_append]
      rfl
    rw [hlen]
    have hget : ((pre0 ++ [b]) ++ tail).get? pre0.length = some b := by
      rw [List.append_assoc]
      rw [List.get?_append_right (Nat.le_refl pre0.length)]
      rw [Nat.sub_self]
      rfl
    show (match ((pre0 ++ [b]) ++ tail).get? pre0.length with
      | none => none
      | some ch => if identChar ch then expandStart ((pre0 ++ [b]) ++ tail) pre0.length
                   else some (pre0.length + 1)) = some (pre0.length + 1)
    rw [hget]
    show (if identChar b then expandStart ((pre0 ++ [b]) ++ tail) pre0.length
          else some (pre0.length + 1)) = some (pre0.length + 1)
    rw [hb]
    rw [if_neg (by decide : ¬((false : Bool) = true))]

theorem leadingIdent_exact : ∀ (sym post : Str),
    (∀ c ∈ sym, identChar c = true) →
    (∀ c, post.head? = some c → identChar c = false) →
    leadingIdent (sym ++ post) = sym.length := by
  intro sym
  induction sym with
  | nil =>
    intro post _ hpost
    show leadingIdent post = 0
    cases hp : post with
    | nil => rfl
    | cons a rest =>
      show leadingIdent (a :: rest) = 0
      unfold leadingIdent
      rw [hpost a (by rw [hp]; rfl)]
      rw [if_neg (by decide : ¬((false : Bool) = true))]
  | cons c rest ih =>
    intro post hsym hpost
    show leadingIdent (c :: (rest ++ post)) = rest.length + 1
    unfold leadingIdent
    rw [hsym c (List.mem_cons_self c rest)]
    rw [if_pos rfl]
    rw [ih post (fun d hd => hsym d (List.mem_cons_of_mem c hd)) hpost]

theorem slice_middle (pre sym post : Str) :
    ((pre ++ (sym ++ post)).take (pre.length + sym.length)).drop pre.length = sym := by
  rw [List.drop_take]
  rw [List.drop_left]
  rw [Nat.add_sub_cancel_left]
  rw [List.take_left]

theorem ident_not_space (c : Char) (h : identChar c = true) : pyIsSpace c = false := by
  unfold identChar at h
  unfold pyIsSpace
  simp only [Bool.or_eq_true, Bool.and_eq_true, decide_eq_true_eq] at h
  simp only [Bool.or_eq_false_iff, decide_eq_false_iff_not]
  rcases h with ((h1 | h1) | h1) | h1
  · omega
  · omega
  · omega
  · have h2 : c.toNat = 95 := by
      rw [h1]
      rfl
    omega

theorem pyStrip_ident (s : Str) (hs : ∀ c ∈ s, identChar c = true) : pyStrip s = s := by
  unfold pyStrip
  have h1 : s.dropWhile pyIsSpace = s := by
    apply dropWhile_head_not
    intro c hc
    have hm : c ∈ s := by
      cases s with
      | nil => cases hc
      | cons a rest =>
        injection hc with h2
        rw [← h2]
        exact List.mem_cons_self a rest
    exact ident_not_space c (hs c hm)
  rw [h1]
  have h2 : s.reverse.dropWhile pyIsSpace = s.reverse := by
    apply dropWhile_head_not
    intro c hc
    have hm : c ∈ s := by
      have hmr : c ∈ s.reverse := by
        cases hx : s.reverse with
        | nil => rw [hx] at hc; cases hc
        | cons a rest =>
          rw [hx] at hc
          injection hc with h3
          rw [← h3]
          exact List.mem_cons_self a rest
      exact List.mem_reverse.mp hmr
    exact ident_not_space c (hs c hm)
  rw [h2, List.reverse_reverse]

theorem takeUntil_no_stop (stopc : Char) : ∀ (s : Str),
    (∀ c ∈ s, c ≠ stopc) → takeUntil stopc s = s := by
  intro s
  induction s with
  | nil => intro h; rfl
  | cons a rest ih =>
    intro h
    have h2 := ih (fun c hc => h c (List.mem_cons_of_mem a hc))
    unfold takeUntil at h2 ⊢
    rw [List.takeWhile_cons]
    rw [if_pos (decide_eq_true (h a (List.mem_cons_self a rest)))]
    rw [h2]

theorem identChar_ne (c : Char) (h : identChar c = true) (d : Char)
    (hd : identChar d = false) : c ≠ d := by
  intro he
  rw [he, hd] at h
  cases h

/-- C8: for a symbol defined in exactly one file of the workspace, with the
canonical path-derived qualified name, reverse-resolving the name to a
`(file, line, col)` location (`resolve_qualified_name_to_location`) and
forward-resolving that location back to a name
(`extract_qualified_name_from_location`) recovers the original qualified
name.  The hypotheses spell out "defined in exactly one file": the
workspace search for the bare symbol returns that single definition site,
the site's path is crate-consistent with the name, the file's text carries
the symbol as an identifier at the reported column, and the name is the
path-derived one. -/
theorem c8_reverse_then_forward_roundtrip (lsp : Lsp)
    (qn relPath symName pre post lineStr : Str) (lines : List Str)
    (w : WsRecord) (line col : Nat) (q0 q1 : Str) (qrest : List Str)
    (hsplit : pySplitStr ("::".data) qn = q0 :: q1 :: qrest)
    (hlast : (q0 :: q1 :: qrest).getLastD qn = symName)
    (hsym_ne : symName ≠ [])
    (hsym_ident : ∀ c ∈ symName, identChar c = true)
    (hws : lsp.wsym symName = [w])
    (huri : w.uri = "file://".data ++ (lsp.repoPath ++ ('/' :: relPath)))
    (hwline : w.line = line) (hwcol : w.col = col)
    (hcrate : containsSub ("crates/".data ++ underscoreToDash q0)
        (lsp.repoPath ++ ('/' :: relPath)) = true
      ∨ containsSub ("crates/".data ++ q0) (lsp.repoPath ++ ('/' :: relPath)) = true)
    (hrel_noslash : relPath.head? ≠ some '/')
    (hfs : lsp.fs (lsp.repoPath ++ ('/' :: relPath)) = some lines)
    (hline : lines.get? line = some lineStr)
    (hlineeq : lineStr = pre ++ (symName ++ post))
    (hcol : col = pre.length)
    (hpre : pre = [] ∨ ∃ pre0 b, pre = pre0 ++ [b] ∧ identChar b = false)
    (hpost : ∀ c, post.head? = some c → identChar c = false)
    (hqfp : qualifiedFromPath relPath symName = qn) :
    resolveQualifiedNameToLocation lsp qn = some (relPath, line, col)
    ∧ extractQualifiedNameFromLocation lsp
        { uri := "file://".data ++ (lsp.repoPath ++ ('/' :: relPath)),
          start := { line := line, character := col },
          stop := { line := line, character := col } }
      = some qn := by
  have hrel2 : ∀ c, relPath.head? = some c → c ≠ '/' :=
    fun c hc he => hrel_noslash (he ▸ hc)
  have hne_lt : ∀ c ∈ symName, c ≠ '<' :=
    fun c hc => identChar_ne c (hsym_ident c hc) '<' (by decide)
  have hne_lp : ∀ c ∈ symName, c ≠ '(' :=
    fun c hc => identChar_ne c (hsym_ident c hc) '(' (by decide)
  constructor
  · have hlastd : (pySplitStr ("::".data) qn).getLastD qn = symName := by
      rw [hsplit]
      exact hlast
    unfold resolveQualifiedNameToLocation
    rw [hlastd]
    rw [takeUntil_no_stop '<' symName hne_lt]
    rw [takeUntil_no_stop '(' symName hne_lp]
    rw [pyStrip_ident symName hsym_ident]
    rw [if_neg hsym_ne]
    rw [hsplit, hws]
    unfold rqnlLoop
    rw [huri]
    rw [isPrefixOf_self_append]
    rw [if_pos rfl]
    dsimp only
    rw [drop7_fileUri]
    rw [if_neg (by
      intro hcc
      rcases hcrate with h1 | h1
      · rw [h1] at hcc
        cases hcc.1
      · rw [h1] at hcc
        cases hcc.2)]
    rw [relFromRepo_append lsp.repoPath relPath hrel2, hwline, hwcol]
  · unfold extractQualifiedNameFromLocation
    dsimp only
    rw [isPrefixOf_self_append]
    rw [if_pos rfl]
    rw [drop7_fileUri]
    rw [hfs]
    dsimp only
    have hlen : line < lines.length := by
      by_contra hcon
      rw [List.get?_eq_none.mpr (by omega)] at hline
      cases hline
    rw [if_pos hlen, hline]
    dsimp only
    rw [hlineeq, hcol]
    rw [expandStart_boundary pre (symName ++ post) hpre]
    dsimp only
    have hee : expandEnd (pre ++ (symName ++ post)) pre.length
        = pre.length + symName.length := by
      unfold expandEnd
      rw [List.drop_left]
      rw [leadingIdent_exact symName post hsym_ident hpost]
    rw [hee]
    rw [slice_middle pre symName post]
    rw [pyStrip_ident symName hsym_ident]
    rw [if_neg hsym_ne]
    rw [relFromRepo_append lsp.repoPath relPath hrel2]
    rw [hqfp]



/-- C8 witness workspace: `frob` is defined once, in
`crates/my-crate/src/util.rs` line 2 column 7. -/
def demoW8 : WsRecord :=
  { name := "frob".data, container := [],
    uri := "file:///repo/crates/my-crate/src/util.rs".data, line := 2, col := 7 }

def demoLines8 : List Str :=
  ["use x;\n".data, "\n".data, "pub fn frob() -> u32\n".data]

def demoLsp8 : Lsp :=
  { repoPath := "/repo".data,
    refs := fun _ _ _ => [],
    impls := fun _ _ _ => [],
    defns := fun _ _ _ => [],
    wsym := fun q => if q = "frob".data then [demoW8] else [],
    docsyms := fun _ => [],
    fs := fun p => if p = "/repo/crates/my-crate/src/util.rs".data
      then some demoLines8 else none }

theorem c8_reverse_then_forward_roundtrip_witness :
    resolveQualifiedNameToLocation demoLsp8 ("my_crate::util::frob".data)
      = some ("crates/my-crate/src/util.rs".data, 2, 7)
    ∧ extractQualifiedNameFromLocation demoLsp8
        { uri := "file://".data
            ++ (demoLsp8.repoPath ++ ('/' :: "crates/my-crate/src/util.rs".data)),
          start := { line := 2, character := 7 },
          stop := { line := 2, character := 7 } }
      = some ("my_crate::util::frob".data) :=
  c8_reverse_then_forward_roundtrip demoLsp8
    ("my_crate::util::frob".data) ("crates/my-crate/src/util.rs".data)
    ("frob".data) ("pub fn ".data) ("() -> u32\n".data)
    ("pub fn frob() -> u32\n".data) demoLines8 demoW8 2 7
    ("my_crate".data) ("util".data) [("frob".data)]
    (by decide) (by decide) (by decide) (by decide)
    (by rfl) (by decide) (by rfl) (by rfl)
    (Or.inl (by decide)) (by decide) (by rfl) (by rfl)
    (by decide) (by decide)
    (Or.inr ⟨"pub fn".data, ' ', by decide, by decide⟩)
    (by
      intro c hc
      injection hc with h2
      rw [← h2]
      decide)
    (by decide)



def demoResolverLines : List Str :=
  List.replicate 10 ("\n".data) ++ ["pub fn resolve_path(db: &dyn DB) -> PerNs".data]

def demoLsp5 : Lsp :=
  { repoPath := "/repo".data,
    refs := fun _ _ _ => [],
    impls := fun _ _ _ => [],
    defns := fun _ _ _ => [],
    wsym := fun _ => [],
    docsyms := fun _ => [],
    fs := fun p => if p = "/repo/crates/hir-def/src/resolver.rs".data
      then some demoResolverLines else none }

theorem c5_one_indexed_conversion_and_resolution_witness :
    processSingleHopQuery demoLsp5 defnMethod ("crates/hir/src/lib.rs:42:10".data)
      = collectNames (extractQualifiedNameFromLocation demoLsp5)
          (demoLsp5.defns ("crates/hir/src/lib.rs".data) 41 9)
    ∧ extractQualifiedNameFromLocation demoLsp5
        { uri := "file:///repo/crates/hir-def/src/resolver.rs".data,
          start := { line := 10, character := 7 },
          stop := { line := 10, character := 19 } }
      = some ("hir_def::resolver::resolve_path".data) := by
  have h := c5_one_indexed_conversion_and_resolution demoLsp5
  exact ⟨h.2.1, h.2.2 demoResolverLines rfl (by rfl) (by rfl)⟩


end CodesearchLsp
